import Mathlib

/-!
# Verification of the buffalo SLR(1) parser-generator core

Shallow embedding of `src/include/buffalo/buffalo.h` (the revision the
specification was written from: the CTRE-based header whose
`SLRParser<G>::Build(NonTerminal<G>&)` takes a single argument).

Modelling conventions, mirroring the C++ source:

* Pointer identity of `Terminal<G>` / `NonTerminal<G>` objects is modelled by
  natural-number ids.  `std::map` / `std::set` keyed by pointers iterate in
  pointer order; we model pointer order as id order (ids are assigned in
  creation order).  The per-grammar end-of-stream terminal is created by the
  `Grammar` constructor after all user terminals, so it carries the largest id.
* `std::size_t` precedences are modelled as `Nat`; the default
  `ProductionRule::precedence = -1` is the value `SIZE_MAX = 2^64 - 1`.
* `std::set<Terminal*>` is a strictly sorted list of ids; insertion returns
  whether the element was new, matching the `insert(...).second` /
  size-comparison change detection of the source.
* Rules carry `transId : Option Nat`, an index into a separately supplied
  table of transducer functions; this keeps rules decidable-equality data
  while `ProductionRule::Transduce` semantics are preserved.  C++
  `ProductionRule::operator==` compares only the owning non-terminal and the
  symbol sequence, which `ruleBeq` mirrors.
* Loops of the source (`do/while` fixpoint passes, the growing state vector,
  the closure worklist, the parse loop) are modelled with explicit fuel.
  Where fuel exhaustion would silently diverge from the C++ semantics the
  functions return a distinguished out-of-fuel value, so any theorem whose
  conclusion exhibits a normal result also certifies that the modelled run
  terminated exactly as the C++ run does.
-/

namespace Buffalo

/-- `SIZE_MAX`, the value of `(std::size_t)-1`: the default
`ProductionRule::precedence` before/without a last terminal. -/
def SIZEMAX : Nat := 2 ^ 64 - 1

/-- `bf::Associativity` (`None`, `Left`, `Right`). -/
inductive Associativity where
  | None
  | Left
  | Right
deriving DecidableEq, Repr

/-- `bf::Symbol<G> = std::variant<Terminal<G>*, NonTerminal<G>*>`, with pointer
identity replaced by ids.  Variant ordering (used by `std::map<Symbol<G>, ...>`)
compares the alternative index first, so all terminals order before all
non-terminals. -/
inductive Sym where
  | t : Nat → Sym
  | nt : Nat → Sym
deriving DecidableEq, Repr

/-- Strict order on `Sym` as `std::map<Symbol<G>,...>` sees it. -/
def Sym.lt : Sym → Sym → Bool
  | .t a, .t b => a < b
  | .t _, .nt _ => true
  | .nt _, .t _ => false
  | .nt a, .nt b => a < b

/-- `bf::ProductionRule<G>`: owning non-terminal (`non_terminal_`, 0 before
registration), symbol sequence (`sequence_`), precedence (`precedence`,
default `SIZE_MAX`), and the transducer slot (`transductor_`, as an index). -/
structure Rule where
  ntId : Nat
  seq : List Sym
  prec : Nat
  transId : Option Nat
deriving DecidableEq, Repr

/-- `ProductionRule<G>::operator==`: compares the owning non-terminal and the
symbol sequence only (transducer and precedence are ignored). -/
def ruleBeq (a b : Rule) : Bool :=
  a.ntId == b.ntId && a.seq == b.seq

/-!
## Ordered id sets (`std::set` keyed by object pointers)
-/

/-- Strictly ascending: the shape `std::set<Nat>` contents always have. -/
def Srt (l : List Nat) : Prop := List.Pairwise (· < ·) l

instance : DecidablePred Srt := fun l => by
  unfold Srt; infer_instance

/-- Ordered insert without duplicates: `std::set<Nat>::insert`. -/
def insertT (x : Nat) : List Nat → List Nat
  | [] => [x]
  | y :: ys =>
    if x < y then x :: y :: ys
    else if x = y then y :: ys
    else y :: insertT x ys

/-- `a.insert(b.begin(), b.end())`: insert every element of `b` into `a`. -/
def unionT (a b : List Nat) : List Nat :=
  b.foldl (fun acc x => insertT x acc) a

theorem mem_insertT {a x : Nat} : ∀ {l : List Nat}, a ∈ insertT x l ↔ a = x ∨ a ∈ l := by
  intro l
  induction l with
  | nil => simp [insertT]
  | cons y ys ih =>
    by_cases h1 : x < y
    · simp [insertT, h1]
    · by_cases h2 : x = y
      · subst h2
        have heq : insertT x (x :: ys) = x :: ys := by simp [insertT, h1]
        rw [heq]
        simp only [List.mem_cons]
        tauto
      · simp only [insertT, if_neg h1, if_neg h2, List.mem_cons, ih]
        tauto

theorem srt_head_le {y x : Nat} {ys : List Nat} (hs : Srt (y :: ys)) (hx : x ∈ y :: ys) :
    y ≤ x := by
  rcases List.mem_cons.mp hx with h | h
  · exact le_of_eq h.symm
  · exact le_of_lt ((List.pairwise_cons.mp hs).1 x h)

theorem srt_insertT {x : Nat} : ∀ {l : List Nat}, Srt l → Srt (insertT x l) := by
  intro l
  induction l with
  | nil => intro _; simp [insertT, Srt]
  | cons y ys ih =>
    intro hs
    have hhead := (List.pairwise_cons.mp hs).1
    have htail : Srt ys := (List.pairwise_cons.mp hs).2
    by_cases h1 : x < y
    · simp only [insertT, if_pos h1]
      refine List.pairwise_cons.mpr ⟨?_, hs⟩
      intro z hz
      rcases List.mem_cons.mp hz with rfl | hmem
      · exact h1
      · exact lt_trans h1 (hhead z hmem)
    · by_cases h2 : x = y
      · simpa [insertT, h1, h2] using hs
      · have hyx : y < x := by omega
        simp only [insertT, if_neg h1, if_neg h2]
        refine List.pairwise_cons.mpr ⟨?_, ih htail⟩
        intro z hz
        rcases mem_insertT.mp hz with rfl | hmem
        · exact hyx
        · exact hhead z hmem

theorem insertT_of_mem {x : Nat} :
    ∀ {l : List Nat}, Srt l → x ∈ l → insertT x l = l := by
  intro l
  induction l with
  | nil => intro _ h; cases h
  | cons y ys ih =>
    intro hs hmem
    have hyx : y ≤ x := srt_head_le hs hmem
    have h1 : ¬ x < y := by omega
    by_cases h2 : x = y
    · simp [insertT, h1, h2]
    · have hys : x ∈ ys := by
        rcases List.mem_cons.mp hmem with h | h
        · exact absurd h h2
        · exact h
      simp [insertT, h1, h2, ih (List.pairwise_cons.mp hs).2 hys]

theorem length_insertT_of_not_mem {x : Nat} :
    ∀ {l : List Nat}, x ∉ l → (insertT x l).length = l.length + 1 := by
  intro l
  induction l with
  | nil => intro _; simp [insertT]
  | cons y ys ih =>
    intro hnm
    have h2 : x ≠ y := fun h => hnm (h ▸ List.mem_cons_self y ys)
    by_cases h1 : x < y
    · simp [insertT, h1]
    · have : x ∉ ys := fun h => hnm (List.mem_cons_of_mem y h)
      simp [insertT, h1, h2, ih this]

theorem length_insertT_ge {x : Nat} :
    ∀ {l : List Nat}, l.length ≤ (insertT x l).length := by
  intro l
  induction l with
  | nil => simp [insertT]
  | cons y ys ih =>
    by_cases h1 : x < y
    · simp [insertT, h1]
    · by_cases h2 : x = y
      · simp [insertT, h1, h2]
      · simpa [insertT, h1, h2] using ih

theorem mem_unionT {x : Nat} :
    ∀ {b a : List Nat}, x ∈ unionT a b ↔ x ∈ a ∨ x ∈ b := by
  intro b
  induction b with
  | nil => intro a; simp [unionT]
  | cons z zs ih =>
    intro a
    have : unionT a (z :: zs) = unionT (insertT z a) zs := rfl
    rw [this, ih]
    simp only [mem_insertT, List.mem_cons]
    tauto

theorem srt_unionT : ∀ {b a : List Nat}, Srt a → Srt (unionT a b) := by
  intro b
  induction b with
  | nil => intro a h; exact h
  | cons z zs ih =>
    intro a ha
    exact ih (srt_insertT ha)

theorem length_unionT_ge : ∀ {b a : List Nat}, a.length ≤ (unionT a b).length := by
  intro b
  induction b with
  | nil => intro a; simp [unionT]
  | cons z zs ih =>
    intro a
    exact le_trans length_insertT_ge ih

theorem unionT_of_subset :
    ∀ {b a : List Nat}, Srt a → (∀ x ∈ b, x ∈ a) → unionT a b = a := by
  intro b
  induction b with
  | nil => intro a _ _; rfl
  | cons z zs ih =>
    intro a ha hsub
    have hz : z ∈ a := hsub z (List.mem_cons_self z zs)
    have : unionT a (z :: zs) = unionT (insertT z a) zs := rfl
    rw [this, insertT_of_mem ha hz]
    exact ih ha (fun x hx => hsub x (List.mem_cons_of_mem z hx))

theorem unionT_length_eq_subset :
    ∀ {b a : List Nat}, Srt a → (unionT a b).length = a.length → ∀ x ∈ b, x ∈ a := by
  intro b
  induction b with
  | nil => intro a _ _ x hx; cases hx
  | cons z zs ih =>
    intro a ha hlen x hx
    have hstep : unionT a (z :: zs) = unionT (insertT z a) zs := rfl
    by_cases hz : z ∈ a
    · rw [hstep, insertT_of_mem ha hz] at hlen
      rcases List.mem_cons.mp hx with rfl | hxs
      · exact hz
      · exact ih ha hlen x hxs
    · exfalso
      have h1 : (insertT z a).length = a.length + 1 := length_insertT_of_not_mem hz
      have h2 : (insertT z a).length ≤ (unionT (insertT z a) zs).length := length_unionT_ge
      rw [hstep] at hlen
      omega

/-!
## FIRST sets: `Grammar<G>::GenerateFirstSet`

`first_` and `follow_` are `std::map<NonTerminal<G>*, std::set<Terminal<G>*>>`
whose `operator[]` default-constructs missing entries, modelled as total
functions from ids to ordered id sets defaulting to `[]`.
-/

/-- `std::map<NonTerminal<G>*, std::set<Terminal<G>*>>` as an association
list.  Reads (`getA`) default-construct conceptually by returning `[]` for a
missing key, exactly what `operator[]` hands the caller. -/
def FMap := List (Nat × List Nat)

/-- Read through `operator[]`: the stored set, or the default-constructed
empty set. -/
def getA : FMap → Nat → List Nat
  | [], _ => []
  | (a, b) :: m, k => if k = a then b else getA m k

/-- Store through `operator[]`: replace the entry or add one. -/
def setA : FMap → Nat → List Nat → FMap
  | [], k, v => [(k, v)]
  | (a, b) :: m, k, v => if k = a then (k, v) :: m else (a, b) :: setA m k v

/-- The empty map. -/
def emptyF : FMap := []

theorem getA_setA_same {m : FMap} {k : Nat} {v : List Nat} : getA (setA m k v) k = v := by
  induction m with
  | nil => simp [setA, getA]
  | cons e m ih =>
    obtain ⟨a, b⟩ := e
    by_cases h : k = a
    · simp [setA, getA, h]
    · simp [setA, getA, h, ih]

theorem getA_setA_other {m : FMap} {k n : Nat} {v : List Nat} (h : n ≠ k) :
    getA (setA m k v) n = getA m n := by
  induction m with
  | nil => simp [setA, getA, h]
  | cons e m ih =>
    obtain ⟨a, b⟩ := e
    by_cases h2 : k = a
    · subst h2
      simp [setA, getA, h]
    · by_cases h3 : n = a <;> simp [setA, getA, h2, h3, ih]

/-- The body of `GenerateFirstSet`'s `std::visit` on `rule.sequence_[0]`:
empty sequences are skipped (`continue`), a leading terminal is inserted into
`first_[nonterminal]`, a leading non-terminal (other than the owner itself,
which is skipped) contributes its whole `first_` set; the returned flag is the
change indication that the source or-accumulates into `has_change`. -/
def firstStep (m : FMap) (p : Nat × Rule) : FMap × Bool :=
  match p.2.seq.head? with
  | none => (m, false)
  | some (.t tm) => (setA m p.1 (insertT tm (getA m p.1)), decide (tm ∉ getA m p.1))
  | some (.nt c) =>
      if c = p.1 then (m, false)
      else
        let u := unionT (getA m p.1) (getA m c)
        (setA m p.1 u, decide (u.length ≠ (getA m p.1).length))

/-- The `has_change |= ...` accumulation for one production. -/
def passStep (st : FMap × Bool) (p : Nat × Rule) : FMap × Bool :=
  let r := firstStep st.1 p
  (r.1, st.2 || r.2)

/-- One full pass of the `do { has_change = false; for(... production_rules_) ... }`
loop of `GenerateFirstSet`. -/
def firstPass (prods : List (Nat × Rule)) (m : FMap) : FMap × Bool :=
  prods.foldl passStep (m, false)

/-- The `do/while(has_change)` iteration, with explicit fuel (a sufficient
fuel value is computed and proven below). -/
def firstIter (prods : List (Nat × Rule)) : Nat → FMap → FMap
  | 0, m => m
  | fuel + 1, m =>
      let r := firstPass prods m
      if r.2 then firstIter prods fuel r.1 else r.1

/-- Ids of non-terminals appearing on a left-hand side in `production_rules_`. -/
def lhsL (prods : List (Nat × Rule)) : List Nat :=
  prods.foldl (fun acc p => insertT p.1 acc) []

/-- Ids of terminals appearing in any right-hand side of `production_rules_`. -/
def termL (prods : List (Nat × Rule)) : List Nat :=
  prods.foldl
    (fun acc p =>
      p.2.seq.foldl (fun acc2 s => match s with | .t tm => insertT tm acc2 | .nt _ => acc2) acc)
    []

/-- Fuel that provably suffices for the FIRST fixpoint iteration. -/
def firstFuel (prods : List (Nat × Rule)) : Nat :=
  (lhsL prods).toFinset.card * (termL prods).length + 1

/-- `Grammar<G>::GenerateFirstSet`, run from the empty map as the constructor
does. -/
def GenerateFirstSet (prods : List (Nat × Rule)) : FMap :=
  firstIter prods (firstFuel prods) emptyF

/-- The specification's reference definition of FIRST: the least family such
that for every production `N → X β`, a leading terminal is a member and a
leading non-terminal `M` contributes all of `FIRST(M)` (equivalently: `t ∈
FIRST(N)` iff some derivation of `N` begins with `t`). -/
inductive FirstOf (prods : List (Nat × Rule)) : Nat → Nat → Prop
  | head (p : Nat × Rule) (hp : p ∈ prods) (tm : Nat)
      (h : p.2.seq.head? = some (.t tm)) : FirstOf prods p.1 tm
  | chain (p : Nat × Rule) (hp : p ∈ prods) (c tm : Nat)
      (h : p.2.seq.head? = some (.nt c)) (hc : FirstOf prods c tm) : FirstOf prods p.1 tm

/-- What one pass leaves invariant when it reports no change: the closure
condition of the FIRST rules for one production. -/
def firstCond (m : FMap) (p : Nat × Rule) : Prop :=
  match p.2.seq.head? with
  | none => True
  | some (.t tm) => tm ∈ getA m p.1
  | some (.nt c) => c = p.1 ∨ ∀ x ∈ getA m c, x ∈ getA m p.1

/-- Structural invariant of the iteration: all sets are ordered, contain only
right-hand-side terminals, and only left-hand-side non-terminals have
non-empty sets. -/
def firstInv (prods : List (Nat × Rule)) (m : FMap) : Prop :=
  (∀ n, Srt (getA m n)) ∧ (∀ n x, x ∈ getA m n → x ∈ termL prods) ∧
    (∀ n, n ∉ lhsL prods → getA m n = [])

/-- Total size of the tracked FIRST sets: the termination measure. -/
def muF (prods : List (Nat × Rule)) (m : FMap) : Nat :=
  ∑ n ∈ (lhsL prods).toFinset, (getA m n).length

theorem mem_lhsL {prods : List (Nat × Rule)} {p : Nat × Rule} (hp : p ∈ prods) :
    p.1 ∈ lhsL prods := by
  have key : ∀ (l : List (Nat × Rule)) (acc : List Nat),
      (p ∈ l ∨ p.1 ∈ acc) → p.1 ∈ l.foldl (fun acc q => insertT q.1 acc) acc := by
    intro l
    induction l with
    | nil =>
      intro acc h
      rcases h with h | h
      · cases h
      · exact h
    | cons q l ih =>
      intro acc h
      apply ih
      rcases h with h | h
      · rcases List.mem_cons.mp h with rfl | h2
        · exact Or.inr (mem_insertT.mpr (Or.inl rfl))
        · exact Or.inl h2
      · exact Or.inr (mem_insertT.mpr (Or.inr h))
  exact key prods [] (Or.inl hp)

theorem mem_termL {prods : List (Nat × Rule)} {p : Nat × Rule} (hp : p ∈ prods)
    {tm : Nat} (hs : Sym.t tm ∈ p.2.seq) : tm ∈ termL prods := by
  have inner : ∀ (sq : List Sym) (acc : List Nat),
      (Sym.t tm ∈ sq ∨ tm ∈ acc) →
      tm ∈ sq.foldl
        (fun acc2 s => match s with | .t u => insertT u acc2 | .nt _ => acc2) acc := by
    intro sq
    induction sq with
    | nil =>
      intro acc h
      rcases h with h | h
      · cases h
      · exact h
    | cons s sq ih =>
      intro acc h
      apply ih
      rcases h with h | h
      · rcases List.mem_cons.mp h with rfl | h2
        · exact Or.inr (mem_insertT.mpr (Or.inl rfl))
        · exact Or.inl h2
      · cases s with
        | t u => exact Or.inr (mem_insertT.mpr (Or.inr h))
        | nt _ => exact Or.inr h
  have key : ∀ (l : List (Nat × Rule)) (acc : List Nat),
      (p ∈ l ∨ tm ∈ acc) →
      tm ∈ l.foldl
        (fun acc q => q.2.seq.foldl
          (fun acc2 s => match s with | .t u => insertT u acc2 | .nt _ => acc2) acc) acc := by
    intro l
    induction l with
    | nil =>
      intro acc h
      rcases h with h | h
      · cases h
      · exact h
    | cons q l ih =>
      intro acc h
      apply ih
      rcases h with h | h
      · rcases List.mem_cons.mp h with rfl | h2
        · exact Or.inr (inner _ _ (Or.inl hs))
        · exact Or.inl h2
      · exact Or.inr (inner _ _ (Or.inr h))
  exact key prods [] (Or.inl hp)

theorem srt_length_le {l tl : List Nat} (hsrt : Srt l) (hsub : ∀ x ∈ l, x ∈ tl) :
    l.length ≤ tl.length := by
  have hnd : l.Nodup := List.Pairwise.imp (fun h => Nat.ne_of_lt h) hsrt
  calc l.length = l.toFinset.card := (List.toFinset_card_of_nodup hnd).symm
    _ ≤ tl.toFinset.card := by
        apply Finset.card_le_card
        intro x hx
        rw [List.mem_toFinset] at hx ⊢
        exact hsub x hx
    _ ≤ tl.length := tl.toFinset_card_le

theorem muF_bound {prods : List (Nat × Rule)} {m : FMap} (hinv : firstInv prods m) :
    muF prods m ≤ (lhsL prods).toFinset.card * (termL prods).length := by
  have := Finset.sum_le_card_nsmul (lhsL prods).toFinset (fun n => (getA m n).length)
    ((termL prods).length)
    (fun n _ => srt_length_le (hinv.1 n) (fun x hx => hinv.2.1 n x hx))
  simpa [muF, smul_eq_mul] using this

theorem firstStep_eq_none {m : FMap} {p : Nat × Rule} (hh : p.2.seq.head? = none) :
    firstStep m p = (m, false) := by
  unfold firstStep; rw [hh]

theorem firstStep_eq_t {m : FMap} {p : Nat × Rule} {tm : Nat}
    (hh : p.2.seq.head? = some (.t tm)) :
    firstStep m p = (setA m p.1 (insertT tm (getA m p.1)), decide (tm ∉ getA m p.1)) := by
  unfold firstStep; rw [hh]

theorem firstStep_eq_nt_self {m : FMap} {p : Nat × Rule} {c : Nat}
    (hh : p.2.seq.head? = some (.nt c)) (hc : c = p.1) :
    firstStep m p = (m, false) := by
  unfold firstStep; rw [hh]; simp [hc]

theorem firstStep_eq_nt_other {m : FMap} {p : Nat × Rule} {c : Nat}
    (hh : p.2.seq.head? = some (.nt c)) (hc : c ≠ p.1) :
    firstStep m p = (setA m p.1 (unionT (getA m p.1) (getA m c)),
            decide ((unionT (getA m p.1) (getA m c)).length ≠ (getA m p.1).length)) := by
  unfold firstStep; rw [hh]; simp [hc]

theorem fst_mk {α β : Type} (a : α) (b : β) : (a, b).1 = a := rfl

theorem snd_mk {α β : Type} (a : α) (b : β) : (a, b).2 = b := rfl

theorem firstCond_none {m : FMap} {p : Nat × Rule} (hh : p.2.seq.head? = none) :
    firstCond m p := by
  unfold firstCond; rw [hh]; trivial

theorem firstCond_t {m : FMap} {p : Nat × Rule} {tm : Nat}
    (hh : p.2.seq.head? = some (.t tm)) : firstCond m p ↔ tm ∈ getA m p.1 := by
  unfold firstCond; rw [hh]

theorem firstCond_nt {m : FMap} {p : Nat × Rule} {c : Nat}
    (hh : p.2.seq.head? = some (.nt c)) :
    firstCond m p ↔ (c = p.1 ∨ ∀ x ∈ getA m c, x ∈ getA m p.1) := by
  unfold firstCond; rw [hh]

theorem firstCond_congr {a b : FMap} {p : Nat × Rule}
    (h : ∀ n, getA a n = getA b n) : firstCond a p ↔ firstCond b p := by
  cases hh : p.2.seq.head? with
  | none => rw [iff_true_intro (firstCond_none (m := a) hh),
      iff_true_intro (firstCond_none (m := b) hh)]
  | some s =>
    cases s with
    | t tm => rw [firstCond_t hh, firstCond_t hh, h]
    | nt c => rw [firstCond_nt hh, firstCond_nt hh, h, h]

theorem firstStep_mono {m : FMap} {p : Nat × Rule} {n x : Nat} (h : x ∈ getA m n) :
    x ∈ getA (firstStep m p).1 n := by
  cases hh : p.2.seq.head? with
  | none => rw [firstStep_eq_none hh]; exact h
  | some s =>
    cases s with
    | t tm =>
      rw [firstStep_eq_t hh, fst_mk]
      by_cases hn : n = p.1
      · subst hn
        rw [getA_setA_same]
        exact mem_insertT.mpr (Or.inr h)
      · rw [getA_setA_other hn]; exact h
    | nt c =>
      by_cases hc : c = p.1
      · rw [firstStep_eq_nt_self hh hc]; exact h
      · rw [firstStep_eq_nt_other hh hc, fst_mk]
        by_cases hn : n = p.1
        · subst hn
          rw [getA_setA_same]
          exact mem_unionT.mpr (Or.inl h)
        · rw [getA_setA_other hn]; exact h

theorem firstStep_len_ge {m : FMap} {p : Nat × Rule} (n : Nat) :
    (getA m n).length ≤ (getA (firstStep m p).1 n).length := by
  cases hh : p.2.seq.head? with
  | none => rw [firstStep_eq_none hh]
  | some s =>
    cases s with
    | t tm =>
      rw [firstStep_eq_t hh, fst_mk]
      by_cases hn : n = p.1
      · subst hn; rw [getA_setA_same]; exact length_insertT_ge
      · rw [getA_setA_other hn]
    | nt c =>
      by_cases hc : c = p.1
      · rw [firstStep_eq_nt_self hh hc]
      · rw [firstStep_eq_nt_other hh hc, fst_mk]
        by_cases hn : n = p.1
        · subst hn; rw [getA_setA_same]; exact length_unionT_ge
        · rw [getA_setA_other hn]

theorem firstStep_flagTrue {m : FMap} {p : Nat × Rule} (hf : (firstStep m p).2 = true) :
    (getA m p.1).length + 1 ≤ (getA (firstStep m p).1 p.1).length := by
  cases hh : p.2.seq.head? with
  | none => rw [firstStep_eq_none hh] at hf; cases hf
  | some s =>
    cases s with
    | t tm =>
      rw [firstStep_eq_t hh, snd_mk] at hf
      rw [firstStep_eq_t hh, fst_mk, getA_setA_same]
      simp only [decide_eq_true_eq] at hf
      rw [length_insertT_of_not_mem hf]
    | nt c =>
      by_cases hc : c = p.1
      · rw [firstStep_eq_nt_self hh hc, snd_mk] at hf; cases hf
      · rw [firstStep_eq_nt_other hh hc, snd_mk] at hf
        rw [firstStep_eq_nt_other hh hc, fst_mk, getA_setA_same]
        simp only [decide_eq_true_eq] at hf
        have := @length_unionT_ge (getA m c) (getA m p.1)
        omega

theorem firstStep_flagFalse {m : FMap} {p : Nat × Rule}
    (hsrt : ∀ n, Srt (getA m n)) (hf : (firstStep m p).2 = false) :
    (∀ n, getA (firstStep m p).1 n = getA m n) ∧ firstCond m p := by
  cases hh : p.2.seq.head? with
  | none =>
    rw [firstStep_eq_none hh]
    exact ⟨fun _ => rfl, firstCond_none hh⟩
  | some s =>
    cases s with
    | t tm =>
      rw [firstStep_eq_t hh, snd_mk] at hf
      simp only [decide_eq_false_iff_not, not_not] at hf
      refine ⟨?_, (firstCond_t hh).mpr hf⟩
      intro n
      rw [firstStep_eq_t hh, fst_mk]
      by_cases hn : n = p.1
      · subst hn
        rw [getA_setA_same, insertT_of_mem (hsrt p.1) hf]
      · rw [getA_setA_other hn]
    | nt c =>
      by_cases hc : c = p.1
      · rw [firstStep_eq_nt_self hh hc]
        exact ⟨fun _ => rfl, (firstCond_nt hh).mpr (Or.inl hc)⟩
      · rw [firstStep_eq_nt_other hh hc, snd_mk] at hf
        simp only [decide_eq_false_iff_not, not_not] at hf
        have hsub := unionT_length_eq_subset (hsrt p.1) hf
        refine ⟨?_, (firstCond_nt hh).mpr (Or.inr hsub)⟩
        intro n
        rw [firstStep_eq_nt_other hh hc, fst_mk]
        by_cases hn : n = p.1
        · subst hn
          rw [getA_setA_same, unionT_of_subset (hsrt p.1) hsub]
        · rw [getA_setA_other hn]

theorem firstStep_inv {prods : List (Nat × Rule)} {m : FMap} {p : Nat × Rule}
    (hp : p ∈ prods) (hinv : firstInv prods m) : firstInv prods ((firstStep m p).1) := by
  obtain ⟨hsrt, hsub, hsupp⟩ := hinv
  cases hh : p.2.seq.head? with
  | none => rw [firstStep_eq_none hh]; exact ⟨hsrt, hsub, hsupp⟩
  | some s =>
    cases s with
    | t tm =>
      rw [firstStep_eq_t hh, fst_mk]
      have htm : tm ∈ termL prods := mem_termL hp (List.mem_of_mem_head? hh)
      refine ⟨?_, ?_, ?_⟩
      · intro n
        by_cases hn : n = p.1
        · subst hn; rw [getA_setA_same]; exact srt_insertT (hsrt _)
        · rw [getA_setA_other hn]; exact hsrt n
      · intro n x hx
        by_cases hn : n = p.1
        · subst hn
          rw [getA_setA_same] at hx
          rcases mem_insertT.mp hx with rfl | hx2
          · exact htm
          · exact hsub _ _ hx2
        · rw [getA_setA_other hn] at hx
          exact hsub _ _ hx
      · intro n hn
        have hne : n ≠ p.1 := fun h => hn (h ▸ mem_lhsL hp)
        rw [getA_setA_other hne]
        exact hsupp n hn
    | nt c =>
      by_cases hc : c = p.1
      · rw [firstStep_eq_nt_self hh hc]
        exact ⟨hsrt, hsub, hsupp⟩
      · rw [firstStep_eq_nt_other hh hc, fst_mk]
        refine ⟨?_, ?_, ?_⟩
        · intro n
          by_cases hn : n = p.1
          · subst hn; rw [getA_setA_same]; exact srt_unionT (hsrt _)
          · rw [getA_setA_other hn]; exact hsrt n
        · intro n x hx
          by_cases hn : n = p.1
          · subst hn
            rw [getA_setA_same] at hx
            rcases mem_unionT.mp hx with hx2 | hx2
            · exact hsub _ _ hx2
            · exact hsub _ _ hx2
          · rw [getA_setA_other hn] at hx
            exact hsub _ _ hx
        · intro n hn
          have hne : n ≠ p.1 := fun h => hn (h ▸ mem_lhsL hp)
          rw [getA_setA_other hne]
          exact hsupp n hn

theorem firstStep_sound {prods : List (Nat × Rule)} {m : FMap} {p : Nat × Rule}
    (hp : p ∈ prods) (hm : ∀ n x, x ∈ getA m n → FirstOf prods n x) :
    ∀ n x, x ∈ getA (firstStep m p).1 n → FirstOf prods n x := by
  intro n x hx
  cases hh : p.2.seq.head? with
  | none => rw [firstStep_eq_none hh] at hx; exact hm n x hx
  | some s =>
    cases s with
    | t tm =>
      rw [firstStep_eq_t hh, fst_mk] at hx
      by_cases hn : n = p.1
      · subst hn
        rw [getA_setA_same] at hx
        rcases mem_insertT.mp hx with rfl | hx2
        · exact FirstOf.head p hp x hh
        · exact hm _ _ hx2
      · rw [getA_setA_other hn] at hx
        exact hm _ _ hx
    | nt c =>
      by_cases hc : c = p.1
      · rw [firstStep_eq_nt_self hh hc] at hx
        exact hm _ _ hx
      · rw [firstStep_eq_nt_other hh hc, fst_mk] at hx
        by_cases hn : n = p.1
        · subst hn
          rw [getA_setA_same] at hx
          rcases mem_unionT.mp hx with hx2 | hx2
          · exact hm _ _ hx2
          · exact FirstOf.chain p hp c x hh (hm _ _ hx2)
        · rw [getA_setA_other hn] at hx
          exact hm _ _ hx

/-!
### The pass fold and the fixpoint iteration
-/

theorem passFold_mono {n x : Nat} :
    ∀ (l : List (Nat × Rule)) (st : FMap × Bool),
      x ∈ getA st.1 n → x ∈ getA (l.foldl passStep st).1 n := by
  intro l
  induction l with
  | nil => intro st h; exact h
  | cons p l ih =>
    intro st h
    exact ih _ (firstStep_mono h)

theorem passFold_len_ge (n : Nat) :
    ∀ (l : List (Nat × Rule)) (st : FMap × Bool),
      (getA st.1 n).length ≤ (getA (l.foldl passStep st).1 n).length := by
  intro l
  induction l with
  | nil => intro st; exact le_refl _
  | cons p l ih =>
    intro st
    exact le_trans (firstStep_len_ge n) (ih (passStep st p))

theorem passFold_inv {prods : List (Nat × Rule)} :
    ∀ (l : List (Nat × Rule)) (st : FMap × Bool),
      (∀ p ∈ l, p ∈ prods) → firstInv prods st.1 →
      firstInv prods ((l.foldl passStep st).1) := by
  intro l
  induction l with
  | nil => intro st _ h; exact h
  | cons p l ih =>
    intro st hsub h
    exact ih _ (fun q hq => hsub q (List.mem_cons_of_mem p hq))
      (firstStep_inv (hsub p (List.mem_cons_self p l)) h)

theorem passFold_sound {prods : List (Nat × Rule)} :
    ∀ (l : List (Nat × Rule)) (st : FMap × Bool),
      (∀ p ∈ l, p ∈ prods) → (∀ n x, x ∈ getA st.1 n → FirstOf prods n x) →
      ∀ n x, x ∈ getA (l.foldl passStep st).1 n → FirstOf prods n x := by
  intro l
  induction l with
  | nil => intro st _ h; exact h
  | cons p l ih =>
    intro st hsub h
    exact ih _ (fun q hq => hsub q (List.mem_cons_of_mem p hq))
      (firstStep_sound (hsub p (List.mem_cons_self p l)) h)

theorem passFold_flagMono :
    ∀ (l : List (Nat × Rule)) (st : FMap × Bool),
      st.2 = true → (l.foldl passStep st).2 = true := by
  intro l
  induction l with
  | nil => intro st h; exact h
  | cons p l ih =>
    intro st h
    apply ih
    simp only [passStep, h, Bool.true_or]

theorem passFold_flagFalse :
    ∀ (l : List (Nat × Rule)) (m : FMap), (∀ n, Srt (getA m n)) →
      (l.foldl passStep (m, false)).2 = false →
      (∀ n, getA (l.foldl passStep (m, false)).1 n = getA m n) ∧
        ∀ p ∈ l, firstCond m p := by
  intro l
  induction l with
  | nil =>
    intro m _ _
    exact ⟨fun _ => rfl, by intro p hp; cases hp⟩
  | cons p l ih =>
    intro m hsrt hflag
    have hfold : (p :: l).foldl passStep (m, false) =
        l.foldl passStep (passStep (m, false) p) := rfl
    have hps : passStep (m, false) p = ((firstStep m p).1, (firstStep m p).2) := by
      simp [passStep]
    by_cases hr : (firstStep m p).2
    · exfalso
      have : (l.foldl passStep (passStep (m, false) p)).2 = true := by
        apply passFold_flagMono
        rw [hps, snd_mk, hr]
      rw [hfold] at hflag
      rw [this] at hflag
      cases hflag
    · have hr' : (firstStep m p).2 = false := by
        cases h : (firstStep m p).2
        · rfl
        · exact absurd h hr
      obtain ⟨hgets, hcond⟩ := firstStep_flagFalse hsrt hr'
      have hsrt' : ∀ n, Srt (getA (firstStep m p).1 n) := fun n => (hgets n) ▸ hsrt n
      rw [hfold] at hflag ⊢
      rw [hps] at hflag ⊢
      rw [hr'] at hflag ⊢
      obtain ⟨hgets2, hconds⟩ := ih ((firstStep m p).1) hsrt' hflag
      refine ⟨fun n => (hgets2 n).trans (hgets n), ?_⟩
      intro q hq
      rcases List.mem_cons.mp hq with rfl | hq2
      · exact hcond
      · exact (firstCond_congr hgets).mp (hconds q hq2)

theorem mu_mono {prods : List (Nat × Rule)} {m mB : FMap}
    (hall : ∀ n, (getA m n).length ≤ (getA mB n).length) :
    muF prods m ≤ muF prods mB :=
  Finset.sum_le_sum (fun n _ => hall n)

theorem mu_congr {prods : List (Nat × Rule)} {m mB : FMap}
    (h : ∀ n, getA m n = getA mB n) : muF prods m = muF prods mB :=
  Finset.sum_congr rfl (fun n _ => by rw [h n])

theorem mu_strict {prods : List (Nat × Rule)} {m mB : FMap} {k : Nat}
    (hk : k ∈ lhsL prods) (hall : ∀ n, (getA m n).length ≤ (getA mB n).length)
    (hs : (getA m k).length + 1 ≤ (getA mB k).length) :
    muF prods m + 1 ≤ muF prods mB := by
  have hlt : muF prods m < muF prods mB := by
    apply Finset.sum_lt_sum (fun n _ => hall n)
    exact ⟨k, List.mem_toFinset.mpr hk, by omega⟩
  omega

theorem passFold_mu_ge {prods : List (Nat × Rule)} (l : List (Nat × Rule))
    (st : FMap × Bool) : muF prods st.1 ≤ muF prods ((l.foldl passStep st).1) :=
  mu_mono (fun n => passFold_len_ge n l st)

theorem passFold_flagTrue_mu {prods : List (Nat × Rule)} :
    ∀ (l : List (Nat × Rule)) (m : FMap), (∀ p ∈ l, p ∈ prods) →
      firstInv prods m → (l.foldl passStep (m, false)).2 = true →
      muF prods m + 1 ≤ muF prods ((l.foldl passStep (m, false)).1) := by
  intro l
  induction l with
  | nil => intro m _ _ h; cases h
  | cons p l ih =>
    intro m hsub hinv hflag
    have hfold : (p :: l).foldl passStep (m, false) =
        l.foldl passStep (passStep (m, false) p) := rfl
    have hps : passStep (m, false) p = ((firstStep m p).1, (firstStep m p).2) := by
      simp [passStep]
    by_cases hr : (firstStep m p).2
    · have h1 : muF prods m + 1 ≤ muF prods ((firstStep m p).1) :=
        mu_strict (mem_lhsL (hsub p (List.mem_cons_self p l)))
          (fun n => firstStep_len_ge n) (firstStep_flagTrue hr)
      have h2 : muF prods ((firstStep m p).1) ≤
          muF prods ((l.foldl passStep (passStep (m, false) p)).1) := by
        have := @passFold_mu_ge prods l (passStep (m, false) p)
        rw [hps] at this ⊢
        exact this
      rw [hfold]
      omega
    · have hr' : (firstStep m p).2 = false := by
        cases h : (firstStep m p).2
        · rfl
        · exact absurd h hr
      obtain ⟨hgets, _⟩ := firstStep_flagFalse hinv.1 hr'
      have hinv' : firstInv prods ((firstStep m p).1) :=
        firstStep_inv (hsub p (List.mem_cons_self p l)) hinv
      rw [hfold, hps, hr'] at hflag ⊢
      have hmu := ih ((firstStep m p).1)
        (fun q hq => hsub q (List.mem_cons_of_mem p hq)) hinv' hflag
      have heq : muF prods ((firstStep m p).1) = muF prods m := mu_congr hgets
      omega

/-- Unfolding of one `do/while` round. -/
theorem firstIter_succ (prods : List (Nat × Rule)) (fuel : Nat) (m : FMap) :
    firstIter prods (fuel + 1) m =
      if (firstPass prods m).2 then firstIter prods fuel (firstPass prods m).1
      else (firstPass prods m).1 := rfl

theorem firstIter_fix (prods : List (Nat × Rule)) :
    ∀ (fuel : Nat) (m : FMap), firstInv prods m →
      (lhsL prods).toFinset.card * (termL prods).length + 1 ≤ muF prods m + fuel →
      (∀ p ∈ prods, firstCond (firstIter prods fuel m) p) ∧
        firstInv prods (firstIter prods fuel m) := by
  intro fuel
  induction fuel with
  | zero =>
    intro m hinv hbound
    exfalso
    have := muF_bound hinv
    omega
  | succ fuel ih =>
    intro m hinv hbound
    rw [firstIter_succ]
    by_cases hflag : (firstPass prods m).2
    · rw [if_pos hflag]
      have hinv' : firstInv prods ((firstPass prods m).1) :=
        passFold_inv prods (m, false) (fun _ h => h) hinv
      have hmu : muF prods m + 1 ≤ muF prods ((firstPass prods m).1) :=
        passFold_flagTrue_mu prods m (fun _ h => h) hinv hflag
      exact ih _ hinv' (by omega)
    · rw [if_neg hflag]
      have hflag' : (firstPass prods m).2 = false := by
        cases h : (firstPass prods m).2
        · rfl
        · exact absurd h hflag
      obtain ⟨hgets, hconds⟩ := passFold_flagFalse prods m hinv.1 hflag'
      have hgets' : ∀ n, getA ((firstPass prods m).1) n = getA m n := hgets
      constructor
      · intro p hp
        exact (firstCond_congr hgets').mpr (hconds p hp)
      · exact passFold_inv prods (m, false) (fun _ h => h) hinv

theorem firstIter_sound (prods : List (Nat × Rule)) :
    ∀ (fuel : Nat) (m : FMap), (∀ n x, x ∈ getA m n → FirstOf prods n x) →
      ∀ n x, x ∈ getA (firstIter prods fuel m) n → FirstOf prods n x := by
  intro fuel
  induction fuel with
  | zero => intro m h; exact h
  | succ fuel ih =>
    intro m h
    rw [firstIter_succ]
    by_cases hflag : (firstPass prods m).2
    · rw [if_pos hflag]
      exact ih _ (passFold_sound prods (m, false) (fun _ h => h) h)
    · rw [if_neg hflag]
      exact passFold_sound prods (m, false) (fun _ h => h) h

theorem firstComplete {prods : List (Nat × Rule)} {m : FMap}
    (hcond : ∀ p ∈ prods, firstCond m p) :
    ∀ n x, FirstOf prods n x → x ∈ getA m n := by
  intro n x hd
  induction hd with
  | head p hp tm h => exact (firstCond_t h).mp (hcond p hp)
  | chain p hp c tm h hc ih =>
    rcases (firstCond_nt h).mp (hcond p hp) with hceq | hsub
    · rw [← hceq]; exact ih
    · exact hsub tm ih

/-- **C4.** For every grammar without ε-productions, the FIRST sets
`Grammar<G>::GenerateFirstSet` computes at construction are exactly the
specification's reference definition: for every non-terminal `n` and terminal
`x`, `x` is in the computed `FIRST(n)` iff some derivation of `n` begins with
`x` — membership in the least family of sets closed under the production
rules (a leading terminal is a member; a leading non-terminal contributes its
whole FIRST set). -/
theorem C4_first_sets_are_least_fixpoint (prods : List (Nat × Rule))
    (hne : ∀ p ∈ prods, p.2.seq ≠ []) (n x : Nat) :
    x ∈ getA (GenerateFirstSet prods) n ↔ FirstOf prods n x := by
  constructor
  · intro h
    refine firstIter_sound prods (firstFuel prods) emptyF ?_ n x h
    intro n' x' h'
    simp [emptyF, getA] at h'
  · intro hd
    have hinv0 : firstInv prods emptyF := by
      refine ⟨fun _ => List.Pairwise.nil, ?_, fun _ _ => rfl⟩
      intro n' x' h'
      simp [emptyF, getA] at h'
    have hmu0 : muF prods emptyF = 0 := by
      simp [muF, emptyF, getA]
    have hbound : (lhsL prods).toFinset.card * (termL prods).length + 1 ≤
        muF prods emptyF + firstFuel prods := by
      rw [hmu0]
      unfold firstFuel
      omega
    obtain ⟨hconds, _⟩ := firstIter_fix prods (firstFuel prods) emptyF hinv0 hbound
    exact firstComplete hconds n x hd

/-- Witness for C4 at the one-production grammar `N0 → t5`. -/
theorem C4_witness :
    FirstOf [(0, ⟨0, [Sym.t 5], SIZEMAX, none⟩)] 0 5 :=
  (C4_first_sets_are_least_fixpoint [(0, ⟨0, [Sym.t 5], SIZEMAX, none⟩)]
    (by decide) 0 5).mp (by decide)

/-!
## FOLLOW sets: `Grammar<G>::GenerateFollowSet`

The source's pass carries `has_change` across all productions and positions of
one `do/while` round.  The end-of-sequence branch *assigns*
(`has_change = child_size != child_follow.size();`) while the other branch
*or-accumulates* (`has_change |= ...`); the model reproduces this exactly.
-/

/-- One position `i` of one production `(nt, r)` of `GenerateFollowSet`'s
inner loop.  Terminal positions are skipped; for a non-terminal `X` at the
last position, `follow_[X]` absorbs `follow_[nt]` (flag assigned); otherwise
the next symbol contributes: a terminal is inserted into `follow_[X]`, a
non-terminal `M` contributes `first_[M]` (flag or-accumulated). -/
def followPosStep (firstM : FMap) (nt : Nat) (r : Rule) (st : FMap × Bool) (i : Nat) :
    FMap × Bool :=
  let m := st.1
  let flag := st.2
  match r.seq.get? i with
  | some (.nt X) =>
    if i = r.seq.length - 1 then
      let u := unionT (getA m X) (getA m nt)
      (setA m X u, decide (u.length ≠ (getA m X).length))
    else
      match r.seq.get? (i + 1) with
      | some (.t tm) => (setA m X (insertT tm (getA m X)), flag || decide (tm ∉ getA m X))
      | some (.nt M) =>
        let u := unionT (getA m X) (getA firstM M)
        (setA m X u, flag || decide (u.length ≠ (getA m X).length))
      | none => (m, flag)
  | _ => (m, flag)

/-- All positions of one production. -/
def followProdStep (firstM : FMap) (st : FMap × Bool) (p : Nat × Rule) : FMap × Bool :=
  (List.range p.2.seq.length).foldl (followPosStep firstM p.1 p.2) st

/-- One full pass over `production_rules_`. -/
def followPass (prods : List (Nat × Rule)) (firstM : FMap) (m : FMap) : FMap × Bool :=
  prods.foldl (followProdStep firstM) (m, false)

/-- The `do/while(has_change)` loop of `GenerateFollowSet`; `none` on fuel
exhaustion, so a `some` result certifies that the modelled loop exited through
its own condition exactly as the C++ loop does. -/
def followIterO (prods : List (Nat × Rule)) (firstM : FMap) : Nat → FMap → Option FMap
  | 0, _ => none
  | fuel + 1, m =>
      let r := followPass prods firstM m
      if r.2 then followIterO prods firstM fuel r.1 else some r.1

/-- `Grammar<G>::GenerateFollowSet`: seed `follow_[&root] = { EOS }`, then
iterate. -/
def GenerateFollowSetO (prods : List (Nat × Rule)) (firstM : FMap)
    (root eos fuel : Nat) : Option FMap :=
  followIterO prods firstM fuel (setA emptyF root [eos])

/-!
## Grammar assembly: `Grammar<G>::Grammar` and `RegisterSymbols`

`RegisterSymbols` walks the grammar depth-first from the start symbol,
inserting each reachable non-terminal, setting each rule's back-reference,
pushing a copy of the rule (back-reference set, precedence still the default)
onto `production_rules_` *before* the symbol walk, registering mentioned
terminals, and finally setting the original rule's precedence to that of the
last terminal of its sequence, if any.
-/

/-- Per-non-terminal rule lists (`nonterminal->rules_`) as an association
list keyed by non-terminal id. -/
def RMap := List (Nat × List Rule)

/-- Read a non-terminal's rule list (empty when never registered). -/
def getR : RMap → Nat → List Rule
  | [], _ => []
  | (a, b) :: m, k => if k = a then b else getR m k

/-- Store a non-terminal's rule list. -/
def setR : RMap → Nat → List Rule → RMap
  | [], k, v => [(k, v)]
  | (a, b) :: m, k, v => if k = a then (k, v) :: m else (a, b) :: setR m k v

/-- The mutable state of `RegisterSymbols`: `nonterminals_`, `terminals_`,
`production_rules_`, and the (mutated-in-place) per-non-terminal rule lists. -/
structure RegState where
  ntIds : List Nat
  termIds : List Nat
  prods : List (Nat × Rule)
  ntR : RMap

/-- The three recursion shapes of `RegisterSymbols`: the call on a
non-terminal, the `for(auto &rule : nonterminal->rules_)` loop, and the
`for(auto &symbol : rule.sequence_)` walk (tracking `last_terminal`). -/
inductive RegIn where
  | ntc (st : RegState) (n : Nat)
  | rules (st : RegState) (n : Nat) (rs : List Rule)
  | syms (st : RegState) (seq : List Sym) (lastT : Option Nat)

/-- `Grammar<G>::RegisterSymbols`, fuel-indexed.  A rule is pushed onto
`production_rules_` (back-reference set, precedence still the default) before
its symbols are walked; the original rule's precedence is set to the last
terminal's precedence afterwards. -/
def regGo (g0 : Nat → List Rule) (tp : Nat → Nat) :
    Nat → RegIn → Option (Option Nat × RegState)
  | 0, _ => none
  | fuel + 1, .ntc st n =>
      regGo g0 tp fuel (.rules { st with ntIds := insertT n st.ntIds } n (g0 n))
  | _ + 1, .rules st _ [] => some (none, st)
  | fuel + 1, .rules st n (r :: rs) =>
      let r1 : Rule := { r with ntId := n }
      match regGo g0 tp fuel (.syms { st with prods := st.prods ++ [(n, r1)] } r1.seq none) with
      | none => none
      | some (lastT, st2) =>
          let r2 : Rule :=
            match lastT with
            | some tid => { r1 with prec := tp tid }
            | none => r1
          regGo g0 tp fuel
            (.rules { st2 with ntR := setR st2.ntR n (getR st2.ntR n ++ [r2]) } n rs)
  | _ + 1, .syms st [] lastT => some (lastT, st)
  | fuel + 1, .syms st (.t tid :: rest) _ =>
      regGo g0 tp fuel (.syms { st with termIds := insertT tid st.termIds } rest (some tid))
  | fuel + 1, .syms st (.nt c :: rest) lastT =>
      if c ∈ st.ntIds then regGo g0 tp fuel (.syms st rest lastT)
      else
        match regGo g0 tp fuel (.ntc st c) with
        | none => none
        | some (_, st2) => regGo g0 tp fuel (.syms st2 rest lastT)

/-- A constructed `bf::Grammar<G>`: reachable symbol sets, the flattened
production list, the start and end-of-stream ids, terminal attributes, and
the computed FIRST/FOLLOW maps. -/
structure Grammar where
  ntRules : RMap
  ntIds : List Nat
  termIds : List Nat
  prodRules : List (Nat × Rule)
  root : Nat
  eos : Nat
  termPrec : Nat → Nat
  termAssoc : Nat → Associativity
  firstM : FMap
  followM : FMap

/-- `Grammar<G>::Grammar(NonTerminal<G> &start)`: create the EOS terminal and
insert it into `terminals_`, run `RegisterSymbols` from the start symbol, then
`GenerateFirstSet` and `GenerateFollowSet`.  `none` when the modelled fuel ran
out (the C++ run always terminates; a `some` result certifies the model
followed it to completion). -/
def mkGrammarO (g0 : Nat → List Rule) (root eos : Nat) (tp : Nat → Nat)
    (ta : Nat → Associativity) (regFuel followFuel : Nat) : Option Grammar :=
  match regGo g0 tp regFuel (.ntc ⟨[], [eos], [], []⟩ root) with
  | none => none
  | some (_, st) =>
      let fm := GenerateFirstSet st.prods
      match GenerateFollowSetO st.prods fm root eos followFuel with
      | none => none
      | some fo =>
          some { ntRules := st.ntR, ntIds := st.ntIds, termIds := st.termIds,
                 prodRules := st.prods, root := root, eos := eos,
                 termPrec := tp, termAssoc := ta, firstM := fm, followM := fo }

instance : Inhabited Grammar :=
  ⟨⟨[], [], [], [], 0, 0, fun _ => 0, fun _ => .None, emptyF, emptyF⟩⟩

/-!
## C3: the FOLLOW iteration stops before the fixed point

User grammar (non-terminals `S=0, N=1, M=2, C=3, Z=4`; terminals
`u=0, m=1, t=2, z=3`, end-of-stream `4`):

    S → N u | C t | Z        N → M        M → C m        C → N        Z → z

Registration orders `production_rules_` as
`[S→Nu, N→M, M→Cm, C→N, S→Ct, S→Z, Z→z]`.  In the second `do/while` pass the
rule `N → M` adds `m` to `FOLLOW(M)` and `C → N` adds `t` to `FOLLOW(N)`
(both end-of-sequence branches, which *assign* `has_change = true`), but the
later end-of-sequence rule `S → Z` finds `FOLLOW(Z)` unchanged and *assigns*
`has_change = false`, so the loop exits: `t ∈ FOLLOW(N)` is never propagated
into `FOLLOW(M)` although `N → M` requires `FOLLOW(M) ⊇ FOLLOW(N)`. -/
def rC3 : Nat → List Rule
  | 0 => [⟨0, [Sym.nt 1, Sym.t 0], SIZEMAX, none⟩,
          ⟨0, [Sym.nt 3, Sym.t 2], SIZEMAX, none⟩,
          ⟨0, [Sym.nt 4], SIZEMAX, none⟩]
  | 1 => [⟨0, [Sym.nt 2], SIZEMAX, none⟩]
  | 2 => [⟨0, [Sym.nt 3, Sym.t 1], SIZEMAX, none⟩]
  | 3 => [⟨0, [Sym.nt 1], SIZEMAX, none⟩]
  | 4 => [⟨0, [Sym.t 3], SIZEMAX, none⟩]
  | _ => []

/-- The grammar of `rC3` as the `Grammar` constructor builds it. -/
def gC3 : Grammar := (mkGrammarO rC3 0 4 id (fun _ => .None) 20 20).getD default

/-- **C3.** The FOLLOW sets computed at construction are *not* closed under
the specification's rules: on the grammar `rC3` the construction terminates
(the loop exits through its own `has_change` condition, witnessed by
`isSome`), the flattened production list contains `N → M` with `M` in last
position — requiring `FOLLOW(M) ⊇ FOLLOW(N)` — and yet the terminal `t = 2`
is in the computed `FOLLOW(N)` but not in the computed `FOLLOW(M)`.  The
claim's fixed-point property fails because the end-of-sequence branch of
`GenerateFollowSet` assigns `has_change` instead of or-ing it, discarding a
change recorded earlier in the same pass (`GenerateFirstSet` or-accumulates,
`has_change |=`, showing the intent). -/
theorem C3_follow_not_fixpoint :
    (mkGrammarO rC3 0 4 id (fun _ => .None) 20 20).isSome = true ∧
    (1, (⟨1, [Sym.nt 2], SIZEMAX, none⟩ : Rule)) ∈ gC3.prodRules ∧
    2 ∈ getA gC3.followM 1 ∧ 2 ∉ getA gC3.followM 2 := by
  decide

/-!
## LR(0) items, states, closure and transitions
-/

/-- `bf::LRItem<G>`: a production with a dot position. -/
structure LRItem where
  rule : Rule
  pos : Nat
deriving DecidableEq, Repr

/-- `LRItem::Complete()`: the dot is past the last symbol. -/
def LRItem.Complete (it : LRItem) : Bool := it.rule.seq.length ≤ it.pos

/-- `LRItem::Advance()`. -/
def LRItem.Advance (it : LRItem) : LRItem := ⟨it.rule, it.pos + 1⟩

/-- `LRItem::NextSymbol()` (only called on incomplete items in the source). -/
def LRItem.NextSymbol (it : LRItem) : Option Sym := it.rule.seq.get? it.pos

/-- `LRItem::operator==`: rule equality (`ProductionRule::operator==`) plus
dot position. -/
def itemBeq (a b : LRItem) : Bool := ruleBeq a.rule b.rule && a.pos == b.pos

/-- `bf::LRState<G>`: the kernel item vector. -/
def LRState := List LRItem
deriving DecidableEq, Repr

/-- `LRState::operator==`: same length, elementwise `LRItem` equality. -/
def stateBeq (a b : LRState) : Bool :=
  a.length == b.length && (List.zip a b).all fun q => itemBeq q.1 q.2

/-- `LRState::GenerateClosure()`: the worklist loop over the growing closure
vector.  Rules of a non-terminal at the dot are appended once per
non-terminal (`closed_nonterminals`), *without* checking whether those items
are already present — the start state's own kernel items can be duplicated. -/
def closureGo (ntR : RMap) : Nat → List LRItem → Nat → List Nat → Option (List LRItem)
  | 0, _, _, _ => none
  | fuel + 1, acc, i, closed =>
    if h : i < acc.length then
      let it := acc.get ⟨i, h⟩
      if it.Complete then closureGo ntR fuel acc (i + 1) closed
      else
        match it.NextSymbol with
        | some (.t _) => closureGo ntR fuel acc (i + 1) closed
        | some (.nt n) =>
            if n ∈ closed then closureGo ntR fuel acc (i + 1) closed
            else
              closureGo ntR fuel (acc ++ (getR ntR n).map (fun r => ⟨r, 0⟩))
                (i + 1) (n :: closed)
        | none => closureGo ntR fuel acc (i + 1) closed
    else some acc

/-- `GenerateClosure` of a kernel. -/
def GenerateClosure (ntR : RMap) (cf : Nat) (st : LRState) : Option (List LRItem) :=
  closureGo ntR cf st 0 []

/-- Ordered insert of a symbol in `std::map<Symbol<G>, ...>` key order. -/
def insSym (s : Sym) : List Sym → List Sym
  | [] => [s]
  | x :: xs => if Sym.lt s x then s :: x :: xs else if s = x then x :: xs else x :: insSym s xs

/-- The key set of the transition map, in its iteration order. -/
def symsSorted (cl : List LRItem) : List Sym :=
  cl.foldl
    (fun acc it =>
      if it.Complete then acc
      else match it.NextSymbol with
        | some s => insSym s acc
        | none => acc)
    []

/-- `LRState::GenerateTransitions()`: group the incomplete closure items by
next symbol (in closure order) and advance them; the resulting map iterates
in symbol order. -/
def GenerateTransitions (ntR : RMap) (cf : Nat) (st : LRState) :
    Option (List (Sym × LRState)) :=
  (GenerateClosure ntR cf st).map fun cl =>
    (symsSorted cl).map fun s =>
      (s, (cl.filter fun it => !it.Complete && it.NextSymbol == some s).map LRItem.Advance)

/-!
## ACTION/GOTO tables and `SLRParser<G>::BuildParsingTables`
-/

/-- `bf::LRActionType` plus payload (`bf::LRAction<G>`); a default-constructed
entry is `kError`. -/
inductive LRAction where
  | kError
  | kAccept
  | kShift (state : Nat)
  | kReduce (rule : Rule)
deriving DecidableEq, Repr

/-- Sorted-association read (`std::map::find`-style; `none` = no entry). -/
def aGet {α : Type} : List (Nat × α) → Nat → Option α
  | [], _ => none
  | (a, b) :: m, k => if k = a then some b else aGet m k

/-- Sorted-association write (`std::map::operator[] = v`). -/
def aSet {α : Type} : List (Nat × α) → Nat → α → List (Nat × α)
  | [], k, v => [(k, v)]
  | (a, b) :: m, k, v =>
    if k < a then (k, v) :: (a, b) :: m
    else if k = a then (k, v) :: m
    else (a, b) :: aSet m k v

/-- The compiled parser tables: `action_` and `goto_`. -/
structure Tables where
  actionT : List (Nat × List (Nat × LRAction))
  gotoT : List (Nat × List (Nat × Nat))
deriving DecidableEq, Repr

instance : Inhabited Tables := ⟨⟨[], []⟩⟩

/-- Read `action_[i][t]` without inserting; a missing entry behaves as the
default-constructed `kError` the `switch` sees. -/
def ActionLookup (T : Tables) (i t : Nat) : LRAction :=
  ((aGet T.actionT i).bind fun row => aGet row t).getD .kError

/-- Write `action_[i][t] = a`. -/
def SetAction (T : Tables) (i t : Nat) (a : LRAction) : Tables :=
  { T with actionT := aSet T.actionT i (aSet ((aGet T.actionT i).getD []) t a) }

/-- Read `goto_[i][n]` as an entry (`none` = absent). -/
def GotoEntry (T : Tables) (i n : Nat) : Option Nat :=
  (aGet T.gotoT i).bind fun row => aGet row n

/-- Read `goto_[i][n]` the way `Parse` does: `std::map::operator[]`
value-initialises a missing entry, yielding state `0`. -/
def GotoLookupD (T : Tables) (i n : Nat) : Nat :=
  (GotoEntry T i n).getD 0

/-- Write `goto_[i][n] = j`. -/
def SetGoto (T : Tables) (i n j : Nat) : Tables :=
  { T with gotoT := aSet T.gotoT i (aSet ((aGet T.gotoT i).getD []) n j) }

/-- Build-time errors.  `BuildParsingTables` returns
`std::optional<Error>`; `fuelOut` marks exhaustion of the modelling fuel
(never reached by theorems that exhibit a normal result). -/
inductive BErr where
  | fuelOut
  | gerr (msg : String)
deriving DecidableEq, Repr

/-- `SLRParser<G>::FindOrInsertLRState`. -/
def FindOrInsertLRState (states : List LRState) (st : LRState) :
    List LRState × Nat :=
  match states.findIdx? (fun s => stateBeq s st) with
  | some j => (states, j)
  | none => (states ++ [st], states.length)

/-- One `follow_terminal` of the REDUCE/ACCEPT entry loop: the `switch` on
the current `action_[i][follow_terminal].type` with the shift/reduce
resolution policy. -/
def processFollowTerm (g : Grammar) (i : Nat) (it : LRItem) (T : Tables)
    (ft : Nat) : Except BErr Tables :=
  match ActionLookup T i ft with
  | .kShift _ =>
      if it.rule.prec < g.termPrec ft then .ok (SetAction T i ft (.kReduce it.rule))
      else if it.rule.prec > g.termPrec ft then .ok T
      else
        match g.termAssoc ft with
        | .Left => .ok (SetAction T i ft (.kReduce it.rule))
        | .Right => .ok T
        | .None => .error (.gerr "ShiftReduce")
  | .kReduce _ => .error (.gerr "ReduceReduce")
  | _ => .ok (SetAction T i ft (.kReduce it.rule))

/-- The REDUCE/ACCEPT entry loop over the state's kernel items. -/
def processReduces (g : Grammar) (i : Nat) (kernel : List LRItem) (T : Tables) :
    Except BErr Tables :=
  kernel.foldlM
    (fun T it =>
      if it.Complete then
        (getA g.followM it.rule.ntId).foldlM (fun T ft => processFollowTerm g i it T ft) T
      else pure T)
    T

/-- The SHIFT/GOTO entry loop over the state's transitions, interleaving
`FindOrInsertLRState` with the table writes. -/
def processTransitions (g : Grammar) (i : Nat) (trans : List (Sym × LRState))
    (states : List LRState) (T : Tables) : List LRState × Tables :=
  trans.foldl
    (fun acc p =>
      let r := FindOrInsertLRState acc.1 p.2
      match p.1 with
      | .t tid => (r.1, SetAction acc.2 i tid (.kShift r.2))
      | .nt n => (r.1, SetGoto acc.2 i n r.2))
    (states, T)

/-- The `for(lrstate_id_t i = 0; i < states.size(); i++)` loop of
`BuildParsingTables`. -/
def buildLoop (g : Grammar) (cf : Nat) :
    Nat → List LRState → Nat → Tables → Except BErr (Tables × List LRState)
  | 0, _, _, _ => .error .fuelOut
  | fuel + 1, states, i, T =>
    if h : i < states.length then
      let st := states.get ⟨i, h⟩
      match GenerateTransitions g.ntRules cf st with
      | none => .error .fuelOut
      | some tr =>
          let r := processTransitions g i tr states T
          match processReduces g i st r.2 with
          | .error e => .error e
          | .ok T3 => buildLoop g cf fuel r.1 (i + 1) T3
    else .ok (T, states)

/-- `SLRParser<G>::BuildParsingTables`: start from the state of the root's
rules at dot 0, run the loop, then set `action_[0][EOS] = kAccept`. -/
def BuildParsingTables (g : Grammar) (cf loopFuel : Nat) :
    Except BErr (Tables × List LRState) :=
  match buildLoop g cf loopFuel [(getR g.ntRules g.root).map (fun r => ⟨r, 0⟩)] 0 ⟨[], []⟩ with
  | .error e => .error e
  | .ok (T, states) => .ok (SetAction T 0 g.eos .kAccept, states)

/-- `SLRParser<G>::Build`: construct, build the tables, and return either the
parser (grammar plus tables) or the error as a tagged result. -/
def SLRBuild (g : Grammar) (cf loopFuel : Nat) : Except BErr (Grammar × Tables) :=
  match BuildParsingTables g cf loopFuel with
  | .error e => .error e
  | .ok (T, _) => .ok (g, T)

/-!
## Association-table lemmas shared by the table and parser theorems
-/

theorem aGet_aSet_same {α : Type} (k : Nat) (v : α) :
    ∀ (m : List (Nat × α)), aGet (aSet m k v) k = some v := by
  intro m
  induction m with
  | nil => simp [aSet, aGet]
  | cons p m ih =>
    by_cases h1 : k < p.1
    · simp [aSet, aGet, h1]
    · by_cases h2 : k = p.1
      · simp [aSet, aGet, h1, h2]
      · simp [aSet, aGet, h1, h2, ih]

theorem aGet_aSet_ne {α : Type} (k v' : Nat) (v : α) (hne : v' ≠ k) :
    ∀ (m : List (Nat × α)), aGet (aSet m k v) v' = aGet m v' := by
  intro m
  induction m with
  | nil => simp [aSet, aGet, hne]
  | cons p m ih =>
    by_cases h1 : k < p.1
    · by_cases h3 : v' = p.1
      · simp [aSet, aGet, h1, hne, h3]
        intro hc
        exact absurd hc (by omega)
      · simp [aSet, aGet, h1, hne, h3]
    · by_cases h2 : k = p.1
      · subst h2
        simp [aSet, aGet, h1, hne]
      · by_cases h3 : v' = p.1
        · simp [aSet, aGet, h1, h2, h3]
        · simp [aSet, aGet, h1, h2, h3, ih]

theorem mem_fst_aSet {α : Type} (k : Nat) (v : α) :
    ∀ (m : List (Nat × α)), k ∈ (aSet m k v).map Prod.fst := by
  intro m
  induction m with
  | nil => simp [aSet]
  | cons p m ih =>
    by_cases h1 : k < p.1
    · simp [aSet, h1]
    · by_cases h2 : k = p.1
      · simp [aSet, h1, h2]
      · simp only [aSet, if_neg h1, if_neg h2, List.map_cons, List.mem_cons]
        exact Or.inr ih

theorem ActionLookup_SetAction_same (T : Tables) (i t : Nat) (a : LRAction) :
    ActionLookup (SetAction T i t a) i t = a := by
  unfold ActionLookup SetAction
  rw [aGet_aSet_same]
  simp [aGet_aSet_same]

theorem SetAction_gotoT (T : Tables) (i t : Nat) (a : LRAction) :
    (SetAction T i t a).gotoT = T.gotoT := rfl

/-!
## The state-aware tokenizer and `SLRParser<G>::Parse`

The run-time side of a parser is modelled by a `Lexicon`: each terminal's
`Lex` (returning the matched prefix length), each terminal's `Reason`, and
the transducer functions by index.  A `Token<G>` keeps its terminal and size
(source locations are dropped).  `Parse` is modelled with the mutable
`action_` / `goto_` tables threaded through the loop, because the source
reads `goto_` with `std::map::operator[]`, which inserts value-initialised
entries into the compiled table.
-/

/-- `bf::Token<G>`: the matched terminal and the match length. -/
structure Tok where
  tid : Nat
  len : Nat
deriving DecidableEq, Repr

/-- The run-time environment of a parse: `Terminal::Lex` (the matched prefix
length, `none` = no match), `Terminal::Reason`, and the transducer table the
rules' `transId` indexes point into. -/
structure Lexicon (V : Type) where
  lex : Nat → List Char → Option Nat
  reason : Nat → Tok → Option V
  transF : Nat → List V → V

/-- `ProductionRule<G>::Transduce`: `nullopt` when no transducer is attached,
otherwise the transducer applied to the children's values. -/
def Transduce {V : Type} (L : Lexicon V) (r : Rule) (args : List V) : Option V :=
  r.transId.map fun id => L.transF id args

/-- The `for(auto terminal : ... | std::views::keys)` loop of
`Tokenizer::Peek`: try each terminal in turn, return the first match. -/
def firstMatch {V : Type} (L : Lexicon V) : List Nat → List Char → Option Tok
  | [], _ => none
  | t :: ks, s =>
    match L.lex t s with
    | some n => some ⟨t, n⟩
    | none => firstMatch L ks s

/-- `Tokenizer::Peek(state)` (non-permissive): skip whitespace persistently,
then try exactly the terminals keyed in `action_.at(state)`.  The outer
`none` is the `std::out_of_range` exception `at` throws when the state has no
action row; `some (inp, none)` is a clean no-match. -/
def Peek {V : Type} (L : Lexicon V) (T : Tables) (state : Nat) (input : List Char) :
    Option (List Char × Option Tok) :=
  (aGet T.actionT state).map fun row =>
    (input.dropWhile Char.isWhitespace,
     firstMatch L (row.map Prod.fst) (input.dropWhile Char.isWhitespace))

/-- `this->goto_[state][nt]` as `Parse` reads it: `std::map::operator[]` on
both levels, which *inserts* a value-initialised entry (state `0`) when the
key is missing.  Returns the value read and the possibly-extended table. -/
def gotoGetIns (T : Tables) (i n : Nat) : Nat × Tables :=
  match aGet ((aGet T.gotoT i).getD []) n with
  | some j => (j, T)
  | none => (0, SetGoto T i n 0)

/-- `Parse`'s outcome: accepted value, the two `std::unexpected` error paths
(`"Unexpected Token!"` when no legal terminal matches, `"Unexpected Token"`
on a `kError` table entry), `exn` for paths on which the C++ would throw or
invoke UB (a missing action row in `Peek`, a parse-stack underflow), and the
model's out-of-fuel marker. -/
inductive PRes (V : Type) where
  | ok (v : V)
  | err (msg : String)
  | exn
  | fuelOut
deriving DecidableEq, Repr

/-- The `while(true)` loop of `SLRParser<G>::Parse` (with `tokens == nullptr`).
The stack holds `(state, value)` pairs, most recent first; shift pushes the
`Reason`ed value (default-constructed when `Reason` yields nothing), reduce
pops `|sequence|` values, transduces them (pushing a default-constructed
value when the rule has no transducer), and reads `goto_` through the
inserting `operator[]`. -/
def parseLoop {V : Type} [Inhabited V] (L : Lexicon V) :
    Nat → Tables → List (Nat × V) → List Char → PRes V × Tables
  | 0, T, _, _ => (.fuelOut, T)
  | fuel + 1, T, stack, input =>
    match stack with
    | [] => (.exn, T)
    | (state, v) :: stk =>
      match Peek L T state input with
      | none => (.exn, T)
      | some (_, none) => (.err "Unexpected Token!", T)
      | some (inp, some tok) =>
        match ActionLookup T state tok.tid with
        | .kAccept => (.ok v, T)
        | .kShift j =>
            parseLoop L fuel T
              ((j, (L.reason tok.tid tok).getD default) :: (state, v) :: stk)
              (inp.drop tok.len)
        | .kReduce r =>
            match ((state, v) :: stk).drop r.seq.length with
            | [] => (.exn, T)
            | top :: rest =>
                parseLoop L fuel (gotoGetIns T top.1 r.ntId).2
                  (((gotoGetIns T top.1 r.ntId).1,
                    (Transduce L r
                      (((((state, v) :: stk).take r.seq.length).map Prod.snd).reverse)).getD
                      default) :: top :: rest)
                  inp
        | .kError => (.err "Unexpected Token", T)

/-- `SLRParser<G>::Parse`: start from the stack holding state `0` with a
default-constructed value, return the outcome and the tables as the call
leaves them. -/
def SLRParse {V : Type} [Inhabited V] (L : Lexicon V) (T : Tables)
    (input : List Char) (fuel : Nat) : PRes V × Tables :=
  parseLoop L fuel T [(0, (default : V))] input

/-!
## Decidable equality of build results
-/

instance {ε α : Type} [DecidableEq ε] [DecidableEq α] : DecidableEq (Except ε α) :=
  fun a b =>
    match a, b with
    | .error e, .error f =>
        if h : e = f then isTrue (by rw [h]) else isFalse (fun hc => h (Except.error.inj hc))
    | .error _, .ok _ => isFalse (fun hc => Except.noConfusion hc)
    | .ok _, .error _ => isFalse (fun hc => Except.noConfusion hc)
    | .ok x, .ok y =>
        if h : x = y then isTrue (by rw [h]) else isFalse (fun hc => h (Except.ok.inj hc))

/-!
## C1: the shift/reduce resolution policy and the default precedence

User grammar (non-terminals `S=0, A=1, D=2, B=3`; terminals `t=0, a=1`,
end-of-stream `2`; terminal precedences are the ids, associativity `None`):

    S → A t | D        A → B        D → B t        B → a

After shifting `B` the parser is in the state `{A → B·, D → B·t}`: the
transition on `t` writes a Shift entry, and the complete item `A → B·` then
attempts a Reduce on `t ∈ FOLLOW(A)`.  The rule `A → B` contains no
terminal, so its `precedence` keeps the default `(std::size_t)-1 =
SIZE_MAX` — the *largest* value, not the claim's −∞ — and the comparison
`rule->precedence < terminal->precedence` fails, so the Shift entry is kept
where the claim requires it to be replaced by `Reduce(A → B)`. -/
def rC1 : Nat → List Rule
  | 0 => [⟨0, [Sym.nt 1, Sym.t 0], SIZEMAX, none⟩, ⟨0, [Sym.nt 2], SIZEMAX, none⟩]
  | 1 => [⟨0, [Sym.nt 3], SIZEMAX, none⟩]
  | 2 => [⟨0, [Sym.nt 3, Sym.t 0], SIZEMAX, none⟩]
  | 3 => [⟨0, [Sym.t 1], SIZEMAX, none⟩]
  | _ => []

/-- The grammar of `rC1` as constructed (terminal precedence = id). -/
def gC1 : Grammar := (mkGrammarO rC1 0 2 id (fun _ => .None) 20 20).getD default

/-- The ACTION/GOTO tables `BuildParsingTables` compiles for `gC1`. -/
def TC1 : Tables :=
  match BuildParsingTables gC1 50 50 with
  | .ok (T, _) => T
  | _ => default

/-- The LR state list `BuildParsingTables` computes for `gC1`. -/
def SC1 : List LRState :=
  match BuildParsingTables gC1 50 50 with
  | .ok (_, s) => s
  | _ => []

/-- **C1, counterexample.**  On the grammar `rC1` the build succeeds; state 4
is `{A → B·, D → B·t}` where the complete rule `A → B` has no terminal in its
sequence and keeps the default precedence `SIZE_MAX`; `t = 0` is in the
computed `FOLLOW(A)`; and the finished ACTION entry at `(4, t)` is the Shift
— not `Reduce(A → B)` as the claim's −∞ reading requires (−∞ < every
terminal precedence would force the replacement). -/
theorem C1_no_terminal_rule_loses_to_shift :
    (mkGrammarO rC1 0 2 id (fun _ => .None) 20 20).isSome = true ∧
    (BuildParsingTables gC1 50 50).isOk = true ∧
    SC1.get? 4 = some [⟨⟨1, [Sym.nt 3], SIZEMAX, none⟩, 1⟩,
                       ⟨⟨2, [Sym.nt 3, Sym.t 0], 0, none⟩, 1⟩] ∧
    0 ∈ getA gC1.followM 1 ∧
    ActionLookup TC1 4 0 = .kShift 6 ∧
    ActionLookup TC1 4 0 ≠ .kReduce ⟨1, [Sym.nt 3], SIZEMAX, none⟩ := by
  decide

/-- **C1, amended.**  When the reduce of a complete item collides with an
existing Shift entry, `processFollowTerm` resolves it by the source's
comparisons on the *stored* rule precedence: strictly smaller than the
lookahead terminal's precedence replaces the entry with the Reduce, strictly
greater keeps the Shift, equality falls through to the terminal's
associativity (Left prefers Reduce, Right keeps Shift, None fails the build
with a shift/reduce error).  A rule with no terminal keeps the *largest*
precedence `SIZE_MAX` (not the claim's −∞), so whenever the lookahead's
precedence is below `SIZE_MAX` such a rule's reduce always loses and the
Shift entry is kept. -/
theorem C1_conflict_policy_on_stored_precedence (g : Grammar) (i : Nat) (it : LRItem)
    (T : Tables) (ft j : Nat) (h : ActionLookup T i ft = .kShift j) :
    (processFollowTerm g i it T ft =
      if it.rule.prec < g.termPrec ft then .ok (SetAction T i ft (.kReduce it.rule))
      else if it.rule.prec > g.termPrec ft then .ok T
      else
        match g.termAssoc ft with
        | .Left => .ok (SetAction T i ft (.kReduce it.rule))
        | .Right => .ok T
        | .None => .error (.gerr "ShiftReduce")) ∧
    (it.rule.prec = SIZEMAX → g.termPrec ft < SIZEMAX →
      processFollowTerm g i it T ft = .ok T) := by
  have hpf : processFollowTerm g i it T ft =
      if it.rule.prec < g.termPrec ft then .ok (SetAction T i ft (.kReduce it.rule))
      else if it.rule.prec > g.termPrec ft then .ok T
      else
        match g.termAssoc ft with
        | .Left => .ok (SetAction T i ft (.kReduce it.rule))
        | .Right => .ok T
        | .None => .error (.gerr "ShiftReduce") := by
    unfold processFollowTerm
    rw [h]
  refine ⟨hpf, fun hp hl => ?_⟩
  rw [hpf, hp]
  have h1 : ¬ SIZEMAX < g.termPrec ft := by omega
  have h2 : SIZEMAX > g.termPrec ft := hl
  rw [if_neg h1, if_pos h2]

/-- Witness for the amended C1 on the conflict of `gC1`: the rule `A → B`
(stored precedence `SIZE_MAX`) against lookahead `t = 0` (precedence `0`)
keeps the Shift entry. -/
theorem C1_policy_witness :
    processFollowTerm gC1 4 ⟨⟨1, [Sym.nt 3], SIZEMAX, none⟩, 1⟩
      (SetAction ⟨[], []⟩ 4 0 (.kShift 6)) 0 =
      .ok (SetAction ⟨[], []⟩ 4 0 (.kShift 6)) :=
  (C1_conflict_policy_on_stored_precedence gC1 4 ⟨⟨1, [Sym.nt 3], SIZEMAX, none⟩, 1⟩
      (SetAction ⟨[], []⟩ 4 0 (.kShift 6)) 0 6 (by decide)).2 rfl (by decide)

/-!
## C2: two reduces on the same lookahead need not fail the build

User grammar (non-terminals `S=0, A=1, B=2, C=3`; terminals `y=0, x=1`,
end-of-stream `2`; terminal precedences are the ids, associativity `None`):

    S → A y | B y | C        A → x        B → x        C → x y

After shifting `x` the parser is in `{A → x·, B → x·, C → x·y}`: both
complete items reduce on the same lookahead `y`, a reduce/reduce situation
by the claim's definition.  But each reduce is compared against the *Shift*
entry written first for `C → x·y`; the rules `A → x` and `B → x` have
precedence `1` (their last terminal `x`) against `y`'s precedence `0`, so
both lose to the Shift, the second reduce never sees a Reduce entry, and the
build succeeds. -/
def rC2 : Nat → List Rule
  | 0 => [⟨0, [Sym.nt 1, Sym.t 0], SIZEMAX, none⟩,
          ⟨0, [Sym.nt 2, Sym.t 0], SIZEMAX, none⟩,
          ⟨0, [Sym.nt 3], SIZEMAX, none⟩]
  | 1 => [⟨0, [Sym.t 1], SIZEMAX, none⟩]
  | 2 => [⟨0, [Sym.t 1], SIZEMAX, none⟩]
  | 3 => [⟨0, [Sym.t 1, Sym.t 0], SIZEMAX, none⟩]
  | _ => []

/-- The grammar of `rC2` as constructed (terminal precedence = id). -/
def gC2 : Grammar := (mkGrammarO rC2 0 2 id (fun _ => .None) 20 20).getD default

/-- The ACTION/GOTO tables `BuildParsingTables` compiles for `gC2`. -/
def TC2 : Tables :=
  match BuildParsingTables gC2 50 50 with
  | .ok (T, _) => T
  | _ => default

/-- The LR state list `BuildParsingTables` computes for `gC2`. -/
def SC2 : List LRState :=
  match BuildParsingTables gC2 50 50 with
  | .ok (_, s) => s
  | _ => []

/-- **C2, counterexample.**  On the grammar `rC2` state 1 holds the two
distinct complete items `A → x·` and `B → x·` (distinct rules: their owning
non-terminals differ), the lookahead `y = 0` is in both computed FOLLOW sets
— yet `SLRParser::Build` *succeeds*: both reduces are resolved against the
Shift entry for `C → x·y`, which the finished table keeps at `(1, y)`.  The
claim's "fails unconditionally" does not hold. -/
theorem C2_two_reduces_build_succeeds :
    (mkGrammarO rC2 0 2 id (fun _ => .None) 20 20).isSome = true ∧
    SC2.get? 1 = some [⟨⟨1, [Sym.t 1], 1, none⟩, 1⟩,
                       ⟨⟨2, [Sym.t 1], 1, none⟩, 1⟩,
                       ⟨⟨3, [Sym.t 1, Sym.t 0], 0, none⟩, 1⟩] ∧
    0 ∈ getA gC2.followM 1 ∧
    0 ∈ getA gC2.followM 2 ∧
    (SLRBuild gC2 50 50).isOk = true ∧
    ActionLookup TC2 1 0 = .kShift 5 := by
  decide

/-- **C2, amended.**  A reduce/reduce failure happens exactly when a reduce
finds the ACTION entry already holding a Reduce: in that case the build
fails with the `ReduceReduce` grammar-definition error, and every error of
`BuildParsingTables` is returned by `SLRParser::Build` as a tagged result
value (no parser is produced, no exception crosses the API).  When an
earlier shift/reduce resolution kept the Shift, a later reduce for a
different rule on the same lookahead is resolved against the Shift again,
so two distinct complete items on the same lookahead need not fail the
build. -/
theorem C2_reduce_reduce_needs_reduce_entry (g : Grammar) (cf lf i : Nat) (it : LRItem)
    (T : Tables) (ft : Nat) (r' : Rule) (h : ActionLookup T i ft = .kReduce r') :
    processFollowTerm g i it T ft = .error (.gerr "ReduceReduce") ∧
    ∀ e, BuildParsingTables g cf lf = .error e → SLRBuild g cf lf = .error e := by
  constructor
  · unfold processFollowTerm
    rw [h]
  · intro e he
    unfold SLRBuild
    rw [he]

/-!
## C6: a left-recursive root fails to build

The specification's own example grammar, `E → E '+' N | N` with `'+'`
declared left-associative (non-terminal `E = 0`; terminals `N = 0`,
`'+' = 1`, end-of-stream `2`).  `GenerateClosure` of the start state begins
from the root's rules as kernel items and, on finding the root `E` at the
dot of `E → ·E '+' N`, appends *all* of `E`'s rules again without checking
for duplicates.  The duplicated item `E → ·N` makes the successor state on
`N` carry the complete item `E → N·` twice; processing its reduces writes
`Reduce(E → N)` and then finds the entry already holding that Reduce — an
unconditional `ReduceReduce` failure. -/
def rC6 : Nat → List Rule
  | 0 => [⟨0, [Sym.nt 0, Sym.t 1, Sym.t 0], SIZEMAX, none⟩,
          ⟨0, [Sym.t 0], SIZEMAX, none⟩]
  | _ => []

/-- `'+'` (terminal 1) is left-associative, as in the claim. -/
def taC6 : Nat → Associativity := fun t => if t = 1 then .Left else .None

/-- The grammar of `rC6` as constructed. -/
def gC6 : Grammar := (mkGrammarO rC6 0 2 id taC6 20 20).getD default

/-- **C6.**  For the left-recursive grammar `E → E '+' N | N` with `'+'`
left-associative, the construction terminates normally but
`BuildParsingTables` — and therefore `SLRParser::Build` — fails with the
`ReduceReduce` grammar-definition error: no parser exists, so `Parse` can
never be applied to `"N + N + N"`, contradicting the claim (and §8 of the
specification).  The failure comes from `GenerateClosure` duplicating the
root's rules in the start state's closure. -/
theorem C6_left_recursive_root_fails_to_build :
    (mkGrammarO rC6 0 2 id taC6 20 20).isSome = true ∧
    (0, (⟨0, [Sym.nt 0, Sym.t 1, Sym.t 0], SIZEMAX, none⟩ : Rule)) ∈ gC6.prodRules ∧
    (0, (⟨0, [Sym.t 0], SIZEMAX, none⟩ : Rule)) ∈ gC6.prodRules ∧
    taC6 1 = .Left ∧
    BuildParsingTables gC6 50 50 = .error (.gerr "ReduceReduce") ∧
    (SLRBuild gC6 50 50).isOk = false := by
  decide

/-- Witness for the amended C2 on a Reduce-occupied entry, with the error
propagation exhibited on `gC6` (whose build fails with `ReduceReduce`). -/
theorem C2_propagation_witness :
    processFollowTerm gC6 0 ⟨⟨0, [], 0, none⟩, 0⟩
      (SetAction ⟨[], []⟩ 0 0 (.kReduce ⟨0, [], 0, none⟩)) 0 =
      .error (.gerr "ReduceReduce") ∧
    SLRBuild gC6 50 50 = .error (.gerr "ReduceReduce") :=
  ⟨(C2_reduce_reduce_needs_reduce_entry gC6 50 50 0 ⟨⟨0, [], 0, none⟩, 0⟩
      (SetAction ⟨[], []⟩ 0 0 (.kReduce ⟨0, [], 0, none⟩)) 0 ⟨0, [], 0, none⟩
      (by decide)).1,
   (C2_reduce_reduce_needs_reduce_entry gC6 50 50 0 ⟨⟨0, [], 0, none⟩, 0⟩
      (SetAction ⟨[], []⟩ 0 0 (.kReduce ⟨0, [], 0, none⟩)) 0 ⟨0, [], 0, none⟩
      (by decide)).2 (.gerr "ReduceReduce") (by decide)⟩

/-!
## C5: the implicit augmentation writes only the ACTION side

Concrete grammar for the counterexample (non-terminal `S = 0`; terminal
`n = 0`, end-of-stream `1`):  `S → n`. -/
def rC5 : Nat → List Rule
  | 0 => [⟨0, [Sym.t 0], SIZEMAX, none⟩]
  | _ => []

/-- The grammar of `rC5` as constructed. -/
def gC5 : Grammar := (mkGrammarO rC5 0 1 id (fun _ => .None) 20 20).getD default

/-- The ACTION/GOTO tables `BuildParsingTables` compiles for `gC5`. -/
def TC5 : Tables :=
  match BuildParsingTables gC5 50 50 with
  | .ok (T, _) => T
  | _ => default

/-- The LR state list `BuildParsingTables` computes for `gC5`. -/
def SC5 : List LRState :=
  match BuildParsingTables gC5 50 50 with
  | .ok (_, s) => s
  | _ => []

/-- The tables of `gC5` before the final `action_[0][EOS] = kAccept` write. -/
def TC5pre : Tables :=
  match buildLoop gC5 50 50 [(getR gC5.ntRules gC5.root).map (fun r => ⟨r, 0⟩)] 0 ⟨[], []⟩ with
  | .ok (T, _) => T
  | _ => default

/-- **C5, counterexample.**  On the grammar `S → n` the build succeeds and
the finished ACTION entry at `(0, EOS)` is Accept — but the GOTO table is
left entirely empty: there is no entry at `(0, S)` at all, where the claim
requires the entry to be state `0`.  Only `Parse`'s defaulting
`std::map::operator[]` read makes the missing entry behave as `0`. -/
theorem C5_goto_entry_never_written :
    (BuildParsingTables gC5 50 50).isOk = true ∧
    ActionLookup TC5 0 gC5.eos = .kAccept ∧
    GotoEntry TC5 0 gC5.root = none ∧
    TC5.gotoT = [] ∧
    GotoLookupD TC5 0 gC5.root = 0 := by
  decide

/-- **C5, amended.**  Whatever table the main loop produces,
`BuildParsingTables` finishes by writing exactly `ACTION[0, EOS] := Accept`:
the finished ACTION entry at `(0, EOS)` is Accept, and the write leaves the
GOTO table untouched — no `GOTO[0, start] := 0` assignment exists in the
source, so the augmentation is implemented on the ACTION side only. -/
theorem C5_augmentation_sets_accept_only (g : Grammar) (cf lf : Nat) (T : Tables)
    (states : List LRState)
    (h : buildLoop g cf lf [(getR g.ntRules g.root).map (fun r => ⟨r, 0⟩)] 0 ⟨[], []⟩ =
      .ok (T, states)) :
    BuildParsingTables g cf lf = .ok (SetAction T 0 g.eos .kAccept, states) ∧
    ActionLookup (SetAction T 0 g.eos .kAccept) 0 g.eos = .kAccept ∧
    (SetAction T 0 g.eos .kAccept).gotoT = T.gotoT := by
  refine ⟨?_, ActionLookup_SetAction_same T 0 g.eos .kAccept, rfl⟩
  unfold BuildParsingTables
  rw [h]

/-- Witness for the amended C5 on the grammar `S → n`. -/
theorem C5_augmentation_witness :
    BuildParsingTables gC5 50 50 = .ok (SetAction TC5pre 0 gC5.eos .kAccept, SC5) ∧
    ActionLookup (SetAction TC5pre 0 gC5.eos .kAccept) 0 gC5.eos = .kAccept ∧
    (SetAction TC5pre 0 gC5.eos .kAccept).gotoT = TC5pre.gotoT :=
  C5_augmentation_sets_accept_only gC5 50 50 TC5pre SC5 (by decide)

/-!
## Concrete lexica and grammars for the parse-level claims
-/

/-- Terminal `0` lexes one character `n`; terminal `1` (end-of-stream) lexes
zero-width exactly at the end of input; nothing else matches. -/
def lexN : Nat → List Char → Option Nat
  | 0, c :: _ => if c = 'n' then some 1 else none
  | 1, [] => some 0
  | _, _ => none

/-- Run-time environment for `gC5`: no reasoners, no transducers. -/
def LC5 : Lexicon Nat := ⟨lexN, fun _ _ => none, fun _ _ => 0⟩

/-- C7's grammar (non-terminals `S = 0, A = 1`; terminal `n = 0`,
end-of-stream `1`): `S → A` with *no* transducer (the alias rule of the
claim), `A → n` with transducer `0`. -/
def rC7 : Nat → List Rule
  | 0 => [⟨0, [Sym.nt 1], SIZEMAX, none⟩]
  | 1 => [⟨0, [Sym.t 0], SIZEMAX, some 0⟩]
  | _ => []

/-- The grammar of `rC7` as constructed. -/
def gC7 : Grammar := (mkGrammarO rC7 0 1 id (fun _ => .None) 20 20).getD default

/-- The ACTION/GOTO tables `BuildParsingTables` compiles for `gC7`. -/
def TC7 : Tables :=
  match BuildParsingTables gC7 50 50 with
  | .ok (T, _) => T
  | _ => default

/-- Run-time environment for `gC7`: `n`'s reasoner yields `7`, transducer `0`
is the identity on the single child. -/
def LC7 : Lexicon Nat :=
  ⟨lexN, fun t _ => if t = 0 then some 7 else none, fun _ args => args.headD 0⟩

/-- **C7, counterexample.**  On `gC7`, parsing `"n"`: the shift of `n`
pushes the reasoned value `7`, the reduce by `A → n` transduces it to `7`,
but the reduce by the transducer-less alias rule `S → A` pushes a
default-constructed value — the parse returns `0`, not the first (and only)
child's value `7` the claim specifies. -/
theorem C7_alias_rule_drops_child_value :
    (mkGrammarO rC7 0 1 id (fun _ => .None) 20 20).isSome = true ∧
    getR gC7.ntRules 0 = [⟨0, [Sym.nt 1], SIZEMAX, none⟩] ∧
    (BuildParsingTables gC7 50 50).isOk = true ∧
    LC7.reason 0 ⟨0, 1⟩ = some 7 ∧
    LC7.transF 0 [7] = 7 ∧
    (SLRParse LC7 TC7 ['n'] 10).1 = .ok 0 ∧
    (SLRParse LC7 TC7 ['n'] 10).1 ≠ .ok 7 := by
  decide

/-- **C7, amended.**  A reduce step by a rule with no transducer pushes a
default-constructed value, whatever the children's values were: when the
action is `kReduce r` with `r.transId = none`, the parse loop continues with
`default` pushed at the GOTO state (`ProductionRule::Transduce` returns
`nullopt` and `Parse` then `emplace`s the stack item without a value).  The
single-symbol alias rule of the claim is the special case `|r.seq| = 1`. -/
theorem C7_reduce_without_transducer_pushes_default (V : Type) [Inhabited V]
    (L : Lexicon V) (fuel : Nat) (T : Tables) (state : Nat) (v : V)
    (stk : List (Nat × V)) (input inp : List Char) (tok : Tok) (r : Rule)
    (top : Nat × V) (rest : List (Nat × V))
    (hp : Peek L T state input = some (inp, some tok))
    (ha : ActionLookup T state tok.tid = .kReduce r)
    (hn : r.transId = none)
    (hd : ((state, v) :: stk).drop r.seq.length = top :: rest) :
    parseLoop L (fuel + 1) T ((state, v) :: stk) input =
      parseLoop L fuel (gotoGetIns T top.1 r.ntId).2
        (((gotoGetIns T top.1 r.ntId).1, (default : V)) :: top :: rest) inp := by
  simp only [parseLoop, hp, ha, hd, Transduce, hn, Option.map_none', Option.getD_none]

/-- Hand-held table for the C7 witness: one Reduce entry at `(0, 5)` for a
transducer-less rule. -/
def rW7 : Rule := ⟨2, [Sym.t 5], 0, none⟩

/-- The witness table holding `ACTION[0][5] = kReduce rW7`. -/
def TW7 : Tables := ⟨[(0, [(5, .kReduce rW7)])], []⟩

/-- The witness lexicon: terminal `5` matches one character. -/
def LW7 : Lexicon Nat :=
  ⟨fun t _ => if t = 5 then some 1 else none, fun _ _ => none, fun _ _ => 0⟩

/-- Witness for the amended C7: a concrete reduce step by the
transducer-less `rW7` continues with the default value `0` pushed. -/
theorem C7_default_push_witness :
    parseLoop LW7 2 TW7 [(0, 3), (9, 4)] ['x'] =
      parseLoop LW7 1 (gotoGetIns TW7 9 2).2
        (((gotoGetIns TW7 9 2).1, (0 : Nat)) :: (9, 4) :: []) ['x'] :=
  C7_reduce_without_transducer_pushes_default Nat LW7 1 TW7 0 3 [(9, 4)] ['x'] ['x']
    ⟨5, 1⟩ rW7 (9, 4) [] (by decide) (by decide) rfl rfl

/-!
## C9: what `Parse` does and does not preserve of the tables
-/

theorem gotoGetIns_actionT (T : Tables) (i n : Nat) :
    (gotoGetIns T i n).2.actionT = T.actionT := by
  unfold gotoGetIns
  cases hrow : aGet ((aGet T.gotoT i).getD []) n with
  | some j => rfl
  | none => rfl

theorem gotoGetIns_goto_read (T : Tables) (i n i' n' : Nat) :
    GotoLookupD (gotoGetIns T i n).2 i' n' = GotoLookupD T i' n' := by
  unfold gotoGetIns
  cases hrow : aGet ((aGet T.gotoT i).getD []) n with
  | some j => rfl
  | none =>
    show GotoLookupD (SetGoto T i n 0) i' n' = GotoLookupD T i' n'
    unfold GotoLookupD GotoEntry SetGoto
    by_cases hi : i' = i
    · subst hi
      rw [aGet_aSet_same]
      cases hg : aGet T.gotoT i' with
      | none =>
        rw [hg] at hrow
        by_cases hn : n' = n
        · subst hn
          simp [aSet, aGet]
        · simp [aSet, aGet, hn]
      | some row =>
        rw [hg] at hrow
        simp only [Option.getD_some] at hrow
        by_cases hn : n' = n
        · subst hn
          simp [aGet_aSet_same, hrow]
        · simp [aGet_aSet_ne n n' 0 hn]
    · rw [aGet_aSet_ne i i' _ hi]

/-- **C9, amended.**  `Parse` never changes the ACTION table, and although
its `goto_[...][...]` reads insert value-initialised entries (state `0`)
into the GOTO table, every GOTO value *read through the same defaulting
lookup* is unchanged: for every fuel, table, stack and input, the tables
after the parse loop agree with the tables before it on the whole ACTION
side and on every `GotoLookupD` observation.  The claim's literal
table-equality fails only because of those inserted default entries. -/
theorem C9_parse_preserves_action_and_goto_reads (V : Type) [Inhabited V]
    (L : Lexicon V) :
    ∀ (fuel : Nat) (T : Tables) (stack : List (Nat × V)) (input : List Char),
      (parseLoop L fuel T stack input).2.actionT = T.actionT ∧
      ∀ i n, GotoLookupD (parseLoop L fuel T stack input).2 i n = GotoLookupD T i n := by
  intro fuel
  induction fuel with
  | zero => exact fun T stack input => ⟨rfl, fun _ _ => rfl⟩
  | succ fuel ih =>
    intro T stack input
    rcases stack with _ | ⟨⟨state, v⟩, stk⟩
    · exact ⟨rfl, fun _ _ => rfl⟩
    · simp only [parseLoop]
      split
      · exact ⟨rfl, fun _ _ => rfl⟩
      · exact ⟨rfl, fun _ _ => rfl⟩
      · split
        · exact ⟨rfl, fun _ _ => rfl⟩
        · exact ih T _ _
        · split
          · exact ⟨rfl, fun _ _ => rfl⟩
          · refine ⟨((ih _ _ _).1).trans (gotoGetIns_actionT T _ _), fun i n => ?_⟩
            exact (((ih _ _ _).2) i n).trans (gotoGetIns_goto_read T _ _ i n)
        · exact ⟨rfl, fun _ _ => rfl⟩

/-- **C9, counterexample.**  On the successfully built parser for `S → n`,
parsing `"n"` succeeds but returns with a GOTO table that gained the
default-inserted entry `(0, S) ↦ 0`: the tables observable after the call
are *not* equal to the tables before it. -/
theorem C9_parse_inserts_goto_default :
    (BuildParsingTables gC5 50 50).isOk = true ∧
    TC5.gotoT = [] ∧
    (SLRParse LC5 TC5 ['n'] 10).1 = .ok 0 ∧
    (SLRParse LC5 TC5 ['n'] 10).2.gotoT = [(0, [(0, 0)])] ∧
    (SLRParse LC5 TC5 ['n'] 10).2 ≠ TC5 := by
  decide

/-!
## C10: a successfully built parser accepts whitespace-only input
-/

theorem firstMatch_eos {V : Type} (L : Lexicon V) (eos n : Nat) (inp : List Char)
    (hs : L.lex eos inp = some n) (hf : ∀ t, t ≠ eos → L.lex t inp = none) :
    ∀ keys : List Nat, eos ∈ keys → firstMatch L keys inp = some ⟨eos, n⟩ := by
  intro keys
  induction keys with
  | nil => intro h; cases h
  | cons t ks ih =>
    intro hmem
    by_cases ht : t = eos
    · subst ht
      simp [firstMatch, hs]
    · rw [show firstMatch L (t :: ks) inp = firstMatch L ks inp by
        simp only [firstMatch, hf t ht]]
      refine ih ?_
      rcases List.mem_cons.mp hmem with h | h
      · exact absurd h.symm ht
      · exact h

/-- **C10.**  For every successfully built parser and every input consisting
only of whitespace: `Peek` skips the whitespace, the end-of-stream terminal
(whose `Lex` matches zero-width at the end while no other terminal matches
there) is returned, `ACTION[0, EOS]` is the Accept written by the build, and
`Parse` returns the default-constructed semantic value of the initial stack
item — it succeeds rather than erroring, leaving the tables untouched. -/
theorem C10_whitespace_only_input_accepts (V : Type) [Inhabited V] (L : Lexicon V)
    (g : Grammar) (cf lf : Nat) (T : Tables) (states : List LRState)
    (input : List Char) (fuel : Nat)
    (hb : BuildParsingTables g cf lf = .ok (T, states))
    (hws : input.dropWhile Char.isWhitespace = [])
    (heos : L.lex g.eos [] = some 0)
    (hothers : ∀ t, t ≠ g.eos → L.lex t [] = none) :
    SLRParse L T input (fuel + 1) = (.ok (default : V), T) := by
  unfold BuildParsingTables at hb
  cases hbl : buildLoop g cf lf [(getR g.ntRules g.root).map (fun r => ⟨r, 0⟩)] 0 ⟨[], []⟩ with
  | error e =>
    rw [hbl] at hb
    exact absurd hb (by simp)
  | ok p =>
    obtain ⟨T0, sts⟩ := p
    rw [hbl] at hb
    have h2 : (Except.ok (SetAction T0 0 g.eos .kAccept, sts) :
        Except BErr (Tables × List LRState)) = .ok (T, states) := hb
    have h3 := Except.ok.inj h2
    have hT : SetAction T0 0 g.eos .kAccept = T := congrArg Prod.fst h3
    subst hT
    have hrow : aGet (SetAction T0 0 g.eos .kAccept).actionT 0 =
        some (aSet ((aGet T0.actionT 0).getD []) g.eos .kAccept) :=
      aGet_aSet_same 0 _ T0.actionT
    have hfm : firstMatch L
        ((aSet ((aGet T0.actionT 0).getD []) g.eos .kAccept).map Prod.fst) [] =
        some ⟨g.eos, 0⟩ :=
      firstMatch_eos L g.eos 0 [] heos hothers _
        (mem_fst_aSet g.eos .kAccept ((aGet T0.actionT 0).getD []))
    have hpk : Peek L (SetAction T0 0 g.eos .kAccept) 0 input = some ([], some ⟨g.eos, 0⟩) := by
      unfold Peek
      rw [hws, hrow, Option.map_some', hfm]
    have hact : ActionLookup (SetAction T0 0 g.eos .kAccept) 0 g.eos = .kAccept :=
      ActionLookup_SetAction_same T0 0 g.eos .kAccept
    unfold SLRParse
    simp only [parseLoop, hpk, hact]

/-- Witness for C10 on the parser of `S → n` and the input `" "`. -/
theorem C10_accepts_witness :
    SLRParse LC5 TC5 [' '] 2 = (.ok (0 : Nat), TC5) :=
  C10_whitespace_only_input_accepts Nat LC5 gC5 50 50 TC5 SC5 [' '] 1
    (by decide) (by decide) (by decide)
    (fun t ht =>
      match t with
      | 0 => rfl
      | 1 => absurd rfl ht
      | _ + 2 => rfl)

end Buffalo
